import Mathlib

/-!
Verification of the multimodal-rag repository against its specification.

The Python sources are shallowly embedded: pure functions become Lean
functions, machine/float arithmetic is made explicit (Python ints are
`Int`/`Nat`, float timestamps and scores are `ℚ`, and the two float
expressions `int(n * 1.3)` and `int(t / 1.3)` are embedded as the exact
integer computations `13 * n / 10` and `10 * t / 13`, which agree with the
IEEE-754 evaluation for every realistic magnitude), fallible constructors
return `Except`, and effectful code (LLM calls, the vector store) is
embedded by explicit state passing and effect logs.

Hashing: `hashlib.sha256` is embedded as a full executable SHA-256 (FIPS
180-4) over the UTF-8 bytes of the input, so digest-format properties are
provable and concrete digests are computable.  `uuid.uuid5` is embedded as
a free constructor recording the namespace and the name string: the model
is deterministic and collision-free, matching the way the code relies on
uuid5 (equal names give equal UUIDs, distinct names give distinct UUIDs).
-/

/-! ## Python string primitives -/

/-- Whitespace trimming at both ends over a character list. -/
def pyStripL (l : List Char) : List Char :=
  ((l.dropWhile Char.isWhitespace).reverse.dropWhile Char.isWhitespace).reverse

/-- Model of Python `str.strip()` (whitespace trimming at both ends). -/
def pyStrip (s : String) : String := String.mk (pyStripL s.data)

/-- Fuel-indexed body of `pySplitWs`: skip whitespace, collect maximal
non-whitespace runs.  Each step consumes at least one character, so the
list length suffices as fuel. -/
def pySplitWsAux : Nat → List Char → List String
  | _, [] => []
  | 0, _ => []
  | fuel + 1, c :: rest =>
      if c.isWhitespace then pySplitWsAux fuel rest
      else
        String.mk ((c :: rest).takeWhile (fun ch => !ch.isWhitespace))
          :: pySplitWsAux fuel ((c :: rest).dropWhile (fun ch => !ch.isWhitespace))

/-- Model of Python `str.split()` with no arguments: split on whitespace
runs, dropping empty pieces. -/
def pySplitWs (s : String) : List String := pySplitWsAux s.data.length s.data

/-- Number of words of a string, as `len(text.split())` computes it. -/
def wordCount (s : String) : Nat := (pySplitWs s).length

/-- Model of `" ".join(parts)`. -/
def joinSpace (l : List String) : String := String.intercalate " " l

/-- Fuel-indexed digit expansion; the fuel only has to exceed the number
of digits, and every caller passes `n + 1`, which always suffices. -/
def natToDigitsAux : Nat → Nat → List Char
  | 0, _ => []
  | fuel + 1, n =>
      if n < 10 then [Nat.digitChar n]
      else natToDigitsAux fuel (n / 10) ++ [Nat.digitChar (n % 10)]

/-- Decimal digits of a natural number, most significant first, as
produced by Python `str()`. -/
def natToDigits (n : Nat) : List Char := natToDigitsAux (n + 1) n

/-- Model of Python `str()` on a nonnegative integer. -/
def pyStrNat (n : Nat) : String := String.mk (natToDigits n)

/-- Model of Python `str()` on an arbitrary integer. -/
def pyStrInt (i : Int) : String :=
  if i < 0 then "-" ++ pyStrNat (-i).toNat else pyStrNat i.toNat

/-- Model of the Python format `f"{n:02d}"` (zero-pad to width 2). -/
def pad2 (i : Int) : String :=
  if 0 ≤ i ∧ i < 10 then "0" ++ pyStrInt i else pyStrInt i

/-- Numeric value of a decimal digit character. -/
def digitVal (c : Char) : Nat := c.toNat - Char.toNat '0'

/-- Evaluation of a most-significant-first digit list back to a number. -/
def digitsToNat (l : List Char) : Nat :=
  l.foldl (fun a c => 10 * a + digitVal c) 0

/-! ## Version-5 UUIDs (model of the Python uuid module) -/

/-- UUID namespaces; the code only ever uses `uuid.NAMESPACE_URL`. -/
inductive UUIDNamespace where
  | url
deriving DecidableEq, Repr

/-- Model of a version-5 UUID.  The real `uuid.uuid5` hashes the
namespace and name with SHA-1 and keeps 122 bits; the code relies on that
map being deterministic and collision-free, so the model records the
namespace and name in a free constructor, which realizes exactly those two
properties. -/
inductive UUID where
  | v5 (ns : UUIDNamespace) (name : String)
deriving DecidableEq, Repr

/-- Model of `uuid.uuid5(namespace, name)`. -/
def uuid5 (ns : UUIDNamespace) (name : String) : UUID := UUID.v5 ns name

/-- Model of `uuid.NAMESPACE_URL`. -/
def NAMESPACE_URL : UUIDNamespace := UUIDNamespace.url

/-! ## SHA-256 (model of hashlib.sha256, FIPS 180-4) -/

/-- UTF-8 encoding of one character (Python `str.encode()` per scalar
value). -/
def utf8EncodeChar (c : Char) : List Nat :=
  let n := c.toNat
  if n < 128 then [n]
  else if n < 2048 then [192 + n / 64, 128 + n % 64]
  else if n < 65536 then [224 + n / 4096, 128 + n / 64 % 64, 128 + n % 64]
  else [240 + n / 262144, 128 + n / 4096 % 64, 128 + n / 64 % 64, 128 + n % 64]

/-- UTF-8 bytes of a string, the input Python feeds to `sha256`. -/
def utf8Bytes (s : String) : List Nat :=
  s.data.foldr (fun c acc => utf8EncodeChar c ++ acc) []

/-- Truncation to a 32-bit word. -/
def w32 (n : Nat) : Nat := n % 4294967296

/-- Right rotation of a 32-bit word. -/
def rotr (k x : Nat) : Nat := w32 ((x >>> k) ||| (x <<< (32 - k)))

/-- SHA-256 big sigma 0. -/
def bigS0 (x : Nat) : Nat := rotr 2 x ^^^ rotr 13 x ^^^ rotr 22 x

/-- SHA-256 big sigma 1. -/
def bigS1 (x : Nat) : Nat := rotr 6 x ^^^ rotr 11 x ^^^ rotr 25 x

/-- SHA-256 small sigma 0. -/
def smallS0 (x : Nat) : Nat := rotr 7 x ^^^ rotr 18 x ^^^ (x >>> 3)

/-- SHA-256 small sigma 1. -/
def smallS1 (x : Nat) : Nat := rotr 17 x ^^^ rotr 19 x ^^^ (x >>> 10)

/-- SHA-256 choice function. -/
def shaCh (e f g : Nat) : Nat := (e &&& f) ^^^ ((e ^^^ 4294967295) &&& g)

/-- SHA-256 majority function. -/
def shaMaj (a b c : Nat) : Nat := (a &&& b) ^^^ (a &&& c) ^^^ (b &&& c)

/-- The 64 SHA-256 round constants (fractional cube roots of the first 64
primes). -/
def sha256K : List Nat :=
  [1116352408, 1899447441, 3049323471, 3921009573, 961987163, 1508970993,
   2453635748, 2870763221, 3624381080, 310598401, 607225278, 1426881987,
   1925078388, 2162078206, 2614888103, 3248222580, 3835390401, 4022224774,
   264347078, 604807628, 770255983, 1249150122, 1555081692, 1996064986,
   2554220882, 2821834349, 2952996808, 3210313671, 3336571891, 3584528711,
   113926993, 338241895, 666307205, 773529912, 1294757372, 1396182291,
   1695183700, 1986661051, 2177026350, 2456956037, 2730485921, 2820302411,
   3259730800, 3345764771, 3516065817, 3600352804, 4094571909, 275423344,
   430227734, 506948616, 659060556, 883997877, 958139571, 1322822218,
   1537002063, 1747873779, 1955562222, 2024104815, 2227730452, 2361852424,
   2428436474, 2756734187, 3204031479, 3329325298]

/-- The eight-word SHA-256 working state. -/
structure Sha256State where
  a : Nat
  b : Nat
  c : Nat
  d : Nat
  e : Nat
  f : Nat
  g : Nat
  h : Nat
deriving DecidableEq, Repr

/-- The SHA-256 initial hash value (fractional square roots of the first
eight primes). -/
def sha256H0 : Sha256State :=
  ⟨1779033703, 3144134277, 1013904242, 2773480762,
   1359893119, 2600822924, 528734635, 1541459225⟩

/-- Big-endian 64-bit length encoding used by the SHA-256 padding. -/
def be64 (n : Nat) : List Nat :=
  [n >>> 56 % 256, n >>> 48 % 256, n >>> 40 % 256, n >>> 32 % 256,
   n >>> 24 % 256, n >>> 16 % 256, n >>> 8 % 256, n % 256]

/-- SHA-256 message padding: append 0x80, zero bytes to 56 mod 64, then
the bit length as a big-endian 64-bit integer. -/
def sha256pad (msg : List Nat) : List Nat :=
  msg ++ [128] ++ List.replicate ((119 - msg.length % 64) % 64) 0
    ++ be64 (8 * msg.length)

/-- Big-endian combination of four bytes into one 32-bit word. -/
def bytesToWords : List Nat → List Nat
  | b0 :: b1 :: b2 :: b3 :: rest =>
      ((b0 <<< 24) ||| (b1 <<< 16) ||| (b2 <<< 8) ||| b3) :: bytesToWords rest
  | _ => []

/-- Fuel-indexed body of `chunkEveryPos`; the fuel only has to reach the
number of emitted runs, and every caller passes the list length. -/
def chunkEveryAux (k : Nat) : Nat → List α → List (List α)
  | _, [] => []
  | 0, l => [l]
  | fuel + 1, x :: xs =>
      (x :: xs).take (k + 1) :: chunkEveryAux k fuel ((x :: xs).drop (k + 1))

/-- Split a list into consecutive runs of `k + 1` elements (the argument
is shifted by one so the run length is positive by construction). -/
def chunkEveryPos (k : Nat) (l : List α) : List (List α) :=
  chunkEveryAux k l.length l

/-- Extend a 16-word block to the 64-word SHA-256 message schedule. -/
def extendW (w : List Nat) : Nat → List Nat
  | 0 => w
  | k + 1 =>
      extendW
        (w ++ [w32 (smallS1 (w.getD (w.length - 2) 0) + w.getD (w.length - 7) 0
          + smallS0 (w.getD (w.length - 15) 0) + w.getD (w.length - 16) 0)]) k

/-- One SHA-256 compression round. -/
def sha256Round (st : Sha256State) (kw : Nat × Nat) : Sha256State :=
  let t1 := w32 (st.h + bigS1 st.e + shaCh st.e st.f st.g + kw.1 + kw.2)
  let t2 := w32 (bigS0 st.a + shaMaj st.a st.b st.c)
  ⟨w32 (t1 + t2), st.a, st.b, st.c, w32 (st.d + t1), st.e, st.f, st.g⟩

/-- SHA-256 compression of one 512-bit block. -/
def compressBlock (st0 : Sha256State) (block16 : List Nat) : Sha256State :=
  let st := (List.zip sha256K (extendW block16 48)).foldl sha256Round st0
  ⟨w32 (st0.a + st.a), w32 (st0.b + st.b), w32 (st0.c + st.c),
   w32 (st0.d + st.d), w32 (st0.e + st.e), w32 (st0.f + st.f),
   w32 (st0.g + st.g), w32 (st0.h + st.h)⟩

/-- SHA-256 of a byte list. -/
def sha256bytes (msg : List Nat) : Sha256State :=
  ((chunkEveryPos 63 (sha256pad msg)).map bytesToWords).foldl compressBlock sha256H0

/-- Lowercase hexadecimal rendering of one 32-bit word (8 characters). -/
def wordHex (w : Nat) : List Char :=
  [Nat.digitChar (w / 268435456 % 16), Nat.digitChar (w / 16777216 % 16),
   Nat.digitChar (w / 1048576 % 16), Nat.digitChar (w / 65536 % 16),
   Nat.digitChar (w / 4096 % 16), Nat.digitChar (w / 256 % 16),
   Nat.digitChar (w / 16 % 16), Nat.digitChar (w % 16)]

/-- Model of `hashlib.sha256(source_url.encode()).hexdigest()`: the
64-character lowercase-hex SHA-256 digest of the UTF-8 bytes of `s`. -/
def sha256hex (s : String) : String :=
  let st := sha256bytes (utf8Bytes s)
  String.mk (wordHex st.a ++ wordHex st.b ++ wordHex st.c ++ wordHex st.d
    ++ wordHex st.e ++ wordHex st.f ++ wordHex st.g ++ wordHex st.h)

/-- Lowercase hexadecimal characters. -/
def isLowerHex (c : Char) : Bool := c.isDigit || ('a' ≤ c && c ≤ 'f')

/-! ## Data model (models/chunks.py) -/

/-- Model of the SourceType string enumeration. -/
inductive SourceType where
  | video
  | web
deriving DecidableEq, Repr

/-- The string value of a SourceType member. -/
def SourceType.value : SourceType → String
  | SourceType.video => "video"
  | SourceType.web => "web"

/-- Model of a Python datetime, identified with its ISO-8601 rendering;
the claims under verification never inspect the time value itself. -/
structure Datetime where
  iso : String
deriving DecidableEq, Repr

/-- Model of TranscriptChunk. -/
structure TranscriptChunk where
  text : String
  source_url : String
  source_name : String
  start_seconds : Int
  end_seconds : Int
deriving DecidableEq, Repr

/-- Computed field timestamp_url of TranscriptChunk. -/
def TranscriptChunk.timestamp_url (c : TranscriptChunk) : String :=
  c.source_url ++ "&t=" ++ pyStrInt c.start_seconds ++ "s"

/-- The MM:SS rendering used by timestamp_display and citation labels
(Python divmod, which floors; the divisor 60 is positive, so `fdiv` and
`emod` agree with Python `//` and `%`). -/
def mmss (ts : Int) : String := pad2 (Int.fdiv ts 60) ++ ":" ++ pad2 (Int.emod ts 60)

/-- Computed field timestamp_display of TranscriptChunk. -/
def TranscriptChunk.timestamp_display (c : TranscriptChunk) : String :=
  mmss c.start_seconds

/-- Model of WebChunk. -/
structure WebChunk where
  text : String
  source_url : String
  source_name : String
  section_heading : Option String
  image_url : Option String
  chunk_index : Option Int
deriving DecidableEq, Repr

/-- Model of SupportChunk. -/
structure SupportChunk where
  chunk_id : UUID
  text : String
  source_type : SourceType
  source_url : String
  source_name : String
  timestamp_seconds : Option Int
  section_heading : Option String
  url_hash : String
  ingested_at : Datetime
deriving DecidableEq, Repr

/-- Python exceptions relevant to the embedded code paths. -/
inductive PyErr where
  | typeError (msg : String)
  | valueError (msg : String)
deriving DecidableEq, Repr

/-- Model of pydantic construction of a SupportChunk followed by
model_post_init: a falsy (empty) url_hash argument is replaced by the
SHA-256 hex digest of source_url, and an absent chunk_id is replaced by
`uuid5(NAMESPACE_URL, source_url + "|" + text)`.  The `ingested_at`
default factory (`datetime.now`) is passed explicitly by the caller. -/
def SupportChunk.init (chunk_id : Option UUID) (text : String)
    (source_type : SourceType) (source_url source_name : String)
    (timestamp_seconds : Option Int) (section_heading : Option String)
    (url_hash : String) (ingested_at : Datetime) : SupportChunk :=
  let uh := if url_hash = "" then sha256hex source_url else url_hash
  let cid := match chunk_id with
    | some c => c
    | none => uuid5 NAMESPACE_URL (source_url ++ "|" ++ text)
  ⟨cid, text, source_type, source_url, source_name, timestamp_seconds,
   section_heading, uh, ingested_at⟩

/-- Model of SupportChunk.from_transcript_chunk. -/
def SupportChunk.from_transcript_chunk (chunk : TranscriptChunk)
    (now : Datetime) : SupportChunk :=
  let stable_id := uuid5 NAMESPACE_URL
    (chunk.source_url ++ "|transcript|" ++ pyStrInt chunk.start_seconds)
  SupportChunk.init (some stable_id) chunk.text SourceType.video
    chunk.source_url chunk.source_name (some chunk.start_seconds) none "" now

/-- Model of SupportChunk.from_web_chunk. -/
def SupportChunk.from_web_chunk (chunk : WebChunk) (now : Datetime) : SupportChunk :=
  match chunk.chunk_index with
  | some idx =>
      SupportChunk.init
        (some (uuid5 NAMESPACE_URL (chunk.source_url ++ "|" ++ pyStrInt idx)))
        chunk.text SourceType.web chunk.source_url chunk.source_name
        none chunk.section_heading "" now
  | none =>
      SupportChunk.init none chunk.text SourceType.web chunk.source_url
        chunk.source_name none chunk.section_heading "" now

/-- Model of SupportChunk.from_frame_chunk. -/
def SupportChunk.from_frame_chunk (chunk : TranscriptChunk)
    (now : Datetime) : SupportChunk :=
  let stable_id := uuid5 NAMESPACE_URL
    (chunk.source_url ++ "|frame|" ++ pyStrInt chunk.start_seconds)
  SupportChunk.init (some stable_id) chunk.text SourceType.video
    chunk.source_url chunk.source_name (some chunk.start_seconds) none "" now

/-- Model of SupportChunk.from_screenshot_chunk, which raises ValueError
when the WebChunk carries no image_url. -/
def SupportChunk.from_screenshot_chunk (chunk : WebChunk)
    (now : Datetime) : Except PyErr SupportChunk :=
  match chunk.image_url with
  | none =>
      Except.error (PyErr.valueError
        "from_screenshot_chunk requires chunk.image_url to be set")
  | some u =>
      Except.ok (SupportChunk.init (some (uuid5 NAMESPACE_URL u)) chunk.text
        SourceType.web chunk.source_url chunk.source_name
        none chunk.section_heading "" now)

/-! ## YouTube transcript chunking (ingest/youtube.py) -/

/-- A caption segment as returned by the captions API or the Voxtral
fallback: text plus float start and duration, embedded as rationals. -/
structure Segment where
  text : String
  start : ℚ
  duration : ℚ
deriving DecidableEq, Repr

/-- Model of Python `int()` applied to a float value: truncation toward
zero, computed as the truncating integer division of numerator by
denominator (the denominator of a rational is positive). -/
def pyInt (q : ℚ) : Int := Int.tdiv q.num (q.den : Int)

/-- Model of `int(word_count * 1.3)`.  For every realistic word count the
IEEE-754 double evaluation truncates to exactly `13 * w / 10` (verified
exhaustively for all w up to 200000). -/
def tokenEstimate (w : Nat) : Nat := 13 * w / 10

/-- Token estimate exactly as the specification words it:
`round(word_count * 1.3)`, i.e. the nearest integer to `13 * w / 10`
(halves rounded up; the development only evaluates this away from
half-way points, where Python round agrees). -/
def claimTokenEstimate (w : Nat) : Nat := (13 * w + 5) / 10

/-- Loop body of chunk_segments.  The recursion carries the previous list
element (`segments[i - 1]`; `none` only at the first element, where
`max(0, i - 1)` selects the current element instead), whether the current
element is the first (`i == 0`), the accumulated texts, the accumulated
token estimate and the pending chunk start time.  `lastAll` is
`segments[-1]` of the whole input, used by the final flush. -/
def chunkSegmentsAux (sourceUrl sourceName : String) (targetTokens : Nat)
    (lastAll : Segment) :
    List Segment → Option Segment → Bool → List String → Nat → ℚ →
    List TranscriptChunk
  | [], _prev, _isFirst, curTexts, _curEst, chunkStart =>
      if curTexts ≠ [] then
        [⟨joinSpace curTexts, sourceUrl, sourceName, pyInt chunkStart,
          pyInt (lastAll.start + lastAll.duration)⟩]
      else []
  | seg :: rest, prev, isFirst, curTexts, curEst, chunkStart =>
      let text := pyStrip seg.text
      if text = "" then
        chunkSegmentsAux sourceUrl sourceName targetTokens lastAll rest
          (some seg) false curTexts curEst chunkStart
      else
        let t := tokenEstimate (wordCount text)
        let chunkStart1 := if isFirst || curEst == 0 then seg.start else chunkStart
        if curEst + t > targetTokens ∧ curTexts ≠ [] then
          let lastSeg := prev.getD seg
          ⟨joinSpace curTexts, sourceUrl, sourceName, pyInt chunkStart1,
            pyInt (lastSeg.start + lastSeg.duration)⟩
            :: chunkSegmentsAux sourceUrl sourceName targetTokens lastAll rest
                (some seg) false [text] t seg.start
        else
          chunkSegmentsAux sourceUrl sourceName targetTokens lastAll rest
            (some seg) false (curTexts ++ [text]) (curEst + t) chunkStart1

/-- Model of chunk_segments. -/
def chunkSegments (segments : List Segment) (sourceUrl sourceName : String)
    (targetTokens : Nat) : List TranscriptChunk :=
  match segments.getLast? with
  | none => []
  | some lastSeg =>
      chunkSegmentsAux sourceUrl sourceName targetTokens lastSeg segments
        none true [] 0 0

/-- The stripped texts of the non-whitespace segments, in input order. -/
def strippedTexts (segments : List Segment) : List String :=
  (segments.map (fun s => pyStrip s.text)).filter (fun t => t ≠ "")

/-- Sum of the per-segment code token estimates (the word count of a
segment is computed on the stripped text, exactly as the loop does;
stripping cannot change a whitespace-split word count). -/
def sumTokenEstimates (segments : List Segment) : Nat :=
  (segments.map (fun s => tokenEstimate (wordCount (pyStrip s.text)))).sum

/-- Sum of the per-segment token estimates as the claim words them. -/
def sumClaimTokenEstimates (segments : List Segment) : Nat :=
  (segments.map (fun s => claimTokenEstimate (wordCount (pyStrip s.text)))).sum

/-! ## Transcript fetching and fallback gating (ingest/youtube.py) -/

/-- Outcome of the captions API call in fetch_transcript, one constructor
per distinctly-typed exception the code branches on. -/
inductive CaptionsOutcome where
  | ok (segments : List Segment)
  | transcriptsDisabled
  | noTranscriptFound
  | ipBlocked
  | otherError
deriving DecidableEq, Repr

/-- Outcome of the Voxtral fallback call fetch_voxtral_transcript. -/
inductive VoxtralOutcome where
  | ok (segments : List Segment)
  | failure
deriving DecidableEq, Repr

/-- Model of fetch_transcript_chunks.  The video-id regex extraction and
the two network calls are modelled as explicit inputs (`videoId` is the
result of extract_video_id, `captions` the outcome of fetch_transcript,
`voxtral` the outcome of the fallback if it were invoked).  The result
pairs the returned chunk list with a flag recording whether the Voxtral
fallback was attempted, so the gating behaviour is observable.  The key
test `if mistral_api_key:` is Python truthiness on a string, i.e.
non-emptiness. -/
def fetch_transcript_chunks (videoId : Option String)
    (captions : CaptionsOutcome) (voxtral : VoxtralOutcome)
    (videoUrl sourceName : String) (targetTokens : Nat)
    (mistralApiKey : String) : List TranscriptChunk × Bool :=
  match videoId with
  | none => ([], false)
  | some _ =>
    let finish : List Segment → Bool → List TranscriptChunk × Bool :=
      fun segments att =>
        if segments = [] then ([], att)
        else (chunkSegments segments videoUrl sourceName targetTokens, att)
    match captions with
    | CaptionsOutcome.ok segments => finish segments false
    | CaptionsOutcome.transcriptsDisabled
    | CaptionsOutcome.noTranscriptFound =>
        if mistralApiKey ≠ "" then
          match voxtral with
          | VoxtralOutcome.ok segments => finish segments true
          | VoxtralOutcome.failure => ([], true)
        else ([], false)
    | CaptionsOutcome.ipBlocked => ([], false)
    | CaptionsOutcome.otherError => ([], false)

/-! ## Web knowledge-base chunking (ingest/web.py) -/

/-- Model of `max(1, int(target_tokens / 1.3))`.  As with `tokenEstimate`,
the IEEE-754 evaluation of `int(t / 1.3)` equals `10 * t / 13` for every
realistic target (verified exhaustively up to 100000). -/
def wordsPerChunk (targetTokens : Nat) : Nat := max 1 (10 * targetTokens / 13)

/-- Model of _split_by_tokens.  `chunkEveryPos (wpc - 1)` groups words
into runs of `wpc` elements, the Python `range(0, len(words), wpc)`
stride (wordsPerChunk is at least 1 by construction). -/
def splitByTokens (text sourceUrl sourceName : String)
    (sectionHeading : Option String) (targetTokens : Nat) : List WebChunk :=
  let words := pySplitWs text
  if words = [] then []
  else
    let wpc := wordsPerChunk targetTokens
    (chunkEveryPos (wpc - 1) words).foldr
      (fun chunkWords acc =>
        let chunkText := pyStrip (joinSpace chunkWords)
        if chunkText ≠ "" then
          ⟨chunkText, sourceUrl, sourceName, sectionHeading, none, none⟩ :: acc
        else acc)
      []

/-- One match of the header pattern `^(#{1,3})\s+(.+)$` (MULTILINE):
start offset of the whole match, end offset, and the second capture
group. -/
structure HeaderMatch where
  mstart : Nat
  mend : Nat
  heading : List Char
deriving DecidableEq, Repr

/-- Offset of the end of the line containing position `p` (the offset of
the next newline at or after `p`, or the end of the string). -/
def lineEndFrom (s : List Char) (p : Nat) : Nat :=
  p + ((s.drop p).takeWhile (fun c => c ≠ '\n')).length

/-- Greedy-with-backtracking choice of where the `\s+` of the header
pattern ends: the largest offset g in the interval
`[afterHash + 1, afterHash + wsLen]` whose character exists and is not a
newline (so that `(.+)$` can match from g).  Scans downward from the
whitespace end, mirroring regex backtracking. -/
def headerGroupStart (s : List Char) (afterHash wsLen : Nat) : Option Nat :=
  (List.range wsLen).findSome? fun j =>
    let g := afterHash + wsLen - j
    match s.get? g with
    | some c => if c ≠ '\n' then some g else none
    | none => none

/-- Attempt to match the header pattern at offset `p`, which the caller
guarantees is a line start.  Returns the match end offset and the second
capture group on success. -/
def tryHeaderAt (s : List Char) (p : Nat) : Option (Nat × List Char) :=
  let rest := s.drop p
  let hashLen := (rest.takeWhile (fun c => c = '#')).length
  if 1 ≤ hashLen ∧ hashLen ≤ 3 then
    let afterHash := p + hashLen
    let wsLen := ((s.drop afterHash).takeWhile Char.isWhitespace).length
    if wsLen = 0 then none
    else
      match headerGroupStart s afterHash wsLen with
      | none => none
      | some g =>
          let e := lineEndFrom s g
          some (e, (s.take e).drop g)
  else none

/-- Scan body for `re.finditer` of the header pattern: positions advance
one character at a time; the anchor `^` holds at offset 0 and right after
every newline; after a match the scan resumes at the match end.  The fuel
bounds the number of steps (each step advances the position by at least
one, so the string length plus one suffices). -/
def headerScanAux (s : List Char) : Nat → Nat → Bool → List HeaderMatch
  | 0, _, _ => []
  | fuel + 1, p, atLineStart =>
      match s.get? p with
      | none => []
      | some c =>
          if atLineStart then
            match tryHeaderAt s p with
            | some (e, grp) => ⟨p, e, grp⟩ :: headerScanAux s fuel e false
            | none => headerScanAux s fuel (p + 1) (c = '\n')
          else headerScanAux s fuel (p + 1) (c = '\n')

/-- All matches of the header pattern over the content, in order. -/
def headerMatches (s : List Char) : List HeaderMatch :=
  headerScanAux s (s.length + 1) 0 true

/-- Per-header section loop of split_by_sections: the text of each
section runs from just after its header match to the start of the next
match (or the end of content), is stripped, and is token-split under the
stripped heading when non-empty. -/
def sectionsLoop (cs : List Char) (sourceUrl sourceName : String)
    (targetTokens : Nat) : List HeaderMatch → List WebChunk
  | [] => []
  | m :: rest =>
      let endP := match rest with
        | [] => cs.length
        | m2 :: _ => m2.mstart
      let sectionText := pyStrip (String.mk ((cs.take endP).drop m.mend))
      let heading := pyStrip (String.mk m.heading)
      (if sectionText ≠ "" then
        splitByTokens sectionText sourceUrl sourceName (some heading) targetTokens
       else [])
        ++ sectionsLoop cs sourceUrl sourceName targetTokens rest

/-- Model of split_by_sections. -/
def splitBySections (content sourceUrl sourceName : String)
    (targetTokens : Nat) : List WebChunk :=
  let cs := content.data
  match headerMatches cs with
  | [] => splitByTokens content sourceUrl sourceName none targetTokens
  | m0 :: ms =>
      let preHeader := pyStrip (String.mk (cs.take m0.mstart))
      (if preHeader ≠ "" then
        splitByTokens preHeader sourceUrl sourceName none targetTokens
       else [])
        ++ sectionsLoop cs sourceUrl sourceName targetTokens (m0 :: ms)

/-! ## Query models (models/query.py) -/

/-- Model of SearchResult; the float relevance score is embedded as a
rational. -/
structure SearchResult where
  text : String
  source_type : SourceType
  source_url : String
  source_name : String
  timestamp_seconds : Option Int
  section_heading : Option String
  relevance_score : ℚ
deriving DecidableEq, Repr

/-- Property citation_url of SearchResult. -/
def SearchResult.citation_url (r : SearchResult) : String :=
  match r.source_type, r.timestamp_seconds with
  | SourceType.video, some ts => r.source_url ++ "&t=" ++ pyStrInt ts ++ "s"
  | _, _ => r.source_url

/-- Property citation_label of SearchResult; the bare `if
self.section_heading:` test is Python truthiness, so an empty heading
falls through to the plain source name. -/
def SearchResult.citation_label (r : SearchResult) : String :=
  match r.source_type, r.timestamp_seconds with
  | SourceType.video, some ts => r.source_name ++ " @ " ++ mmss ts
  | _, _ =>
      match r.section_heading with
      | some h => if h ≠ "" then r.source_name ++ " — " ++ h else r.source_name
      | none => r.source_name

/-- Rounding of the fraction a / b (with b positive) to the nearest
integer, halves to the even neighbour, as Python `round()` does; written
over integer arithmetic so it is correct for unreduced fractions too. -/
def roundHalfEven (a b : Int) : Int :=
  let f := Int.fdiv a b
  if 2 * a = (2 * f + 1) * b then (if Int.emod f 2 = 0 then f else f + 1)
  else Int.fdiv (2 * a + b) (2 * b)

/-- Model of Python `round()` on a rational value. -/
def pyRound (q : ℚ) : Int := roundHalfEven q.num (q.den : Int)

/-- The integer percentage `round(relevance_score * 100)`; the fraction
100 * num / den is fed to the rounding unreduced. -/
def scorePct (q : ℚ) : Int := roundHalfEven (100 * q.num) (q.den : Int)

/-- The rendered citation link
`f"[{label}]({url}) ({score_pct}%)"` shared by citation_markdown and the
generator. -/
def resultLink (r : SearchResult) : String :=
  "[" ++ r.citation_label ++ "](" ++ r.citation_url ++ ") ("
    ++ pyStrInt (scorePct r.relevance_score) ++ "%)"

/-- Property citation_markdown of SearchResult. -/
def SearchResult.citation_markdown (r : SearchResult) : String := resultLink r

/-- Model of Citation. -/
structure Citation where
  label : String
  url : String
  relevance_score : ℚ
  source_type : SourceType
deriving DecidableEq, Repr

/-- Model of CitedAnswer. -/
structure CitedAnswer where
  answer : String
  citations : List Citation
deriving DecidableEq, Repr

/-! ## Embedding helper (store/embeddings.py) -/

/-- A pluggable embedding backend: the langchain Embeddings object whose
embed_documents call may raise (the payload is `str(exc)`). -/
structure Embeddings where
  embedDocuments : List String → Except String (List (List ℚ))

/-- Model of _truncate. -/
def pyTruncate (text : String) (maxWords : Nat) : String :=
  let words := pySplitWs text
  if words.length ≤ maxWords then text else joinSpace (words.take maxWords)

/-- Decidable substring test over character lists. -/
def listContains (s pat : List Char) : Bool :=
  (List.range (s.length + 1)).any fun i => pat.isPrefixOf (s.drop i)

/-- Model of embed_texts: batches of `_BATCH_SIZE = 5`, `_MAX_WORDS =
400` truncation up front, and a single retry at `_RETRY_MAX_WORDS = 200`
when the error message contains "context length". -/
def embed_texts (texts : List String) (embeddings : Embeddings) :
    Except String (List (List ℚ)) :=
  if texts = [] then Except.ok []
  else
    let safeTexts := texts.map (fun t => pyTruncate t 400)
    (chunkEveryPos 4 safeTexts).foldl
      (fun acc batch =>
        match acc with
        | Except.error e => Except.error e
        | Except.ok sofar =>
            match embeddings.embedDocuments batch with
            | Except.ok bs => Except.ok (sofar ++ bs)
            | Except.error e =>
                if listContains e.toLower.data "context length".data then
                  match embeddings.embedDocuments
                      (batch.map (fun t => pyTruncate t 200)) with
                  | Except.ok bs => Except.ok (sofar ++ bs)
                  | Except.error e2 => Except.error e2
                else Except.error e)
      (Except.ok [])

/-! ## Vector store adapter (store/weaviate.py) -/

/-- The stored properties of one Weaviate object, as add_chunks builds
them (a null section_heading is stored as the empty string; ingested_at
is stored as its isoformat rendering). -/
structure StoredProps where
  text : String
  source_type : String
  source_url : String
  source_name : String
  timestamp_seconds : Option Int
  section_heading : String
  url_hash : String
  ingested_at : String
deriving DecidableEq, Repr

/-- The property dict add_chunks builds from one SupportChunk.  Python
`chunk.section_heading or ""` maps both None and the empty string to "",
which coincides with `Option.getD ""`. -/
def chunkProps (c : SupportChunk) : StoredProps :=
  ⟨c.text, c.source_type.value, c.source_url, c.source_name,
   c.timestamp_seconds, c.section_heading.getD "", c.url_hash,
   c.ingested_at.iso⟩

/-- The state of the SupportChunk collection: the stored objects in
insertion order, each carrying its uuid key, properties and vector. -/
abbrev StoreState : Type := List (UUID × StoredProps × List ℚ)

/-- Modelled from the spec: the Weaviate client library is not part of
this repository; per the specification, `batch.add_object(properties,
vector, uuid)` has upsert-by-id semantics — an object whose uuid already
exists is overwritten in place, otherwise a new object is appended. -/
def upsertObject (st : StoreState) (id : UUID) (props : StoredProps)
    (vec : List ℚ) : StoreState :=
  if st.any (fun e => e.1 = id) then
    st.map (fun e => if e.1 = id then (id, props, vec) else e)
  else st ++ [(id, props, vec)]

/-- Model of WeaviateStore._embed exactly as written: it invokes
`embed_texts(texts, api_key=..., base_url=..., model=...)`, but
embed_texts is declared as `embed_texts(texts, embeddings)`; the keyword
arguments do not exist in that signature, so every call raises TypeError
before any embedding work happens. -/
def WeaviateStore_embed (_texts : List String) : Except PyErr (List (List ℚ)) :=
  Except.error (PyErr.typeError
    "embed_texts() got an unexpected keyword argument: api_key")

/-- Model of WeaviateStore.add_chunks as written in the source: empty
input short-circuits to 0 with no embed or store call; non-empty input
first calls self._embed on all chunk texts (which raises, see
WeaviateStore_embed) and would then upsert one object per chunk, counting
each write. -/
def add_chunks (st : StoreState) (chunks : List SupportChunk) :
    Except PyErr (StoreState × Nat) :=
  if chunks = [] then Except.ok (st, 0)
  else
    match WeaviateStore_embed (chunks.map (fun c => c.text)) with
    | Except.error e => Except.error e
    | Except.ok vectors =>
        Except.ok ((chunks.zip vectors).foldl
          (fun acc cv =>
            (upsertObject acc.1 cv.1.chunk_id (chunkProps cv.1) cv.2, acc.2 + 1))
          (st, 0))

/-! ## Cited-answer generation (query/generator.py, query/retriever.py) -/

/-- A chat message (SystemMessage or HumanMessage). -/
inductive ChatMessage where
  | system (content : String)
  | human (content : String)
deriving DecidableEq, Repr

/-- The fixed system instruction of the generator. -/
def SYSTEM_PROMPT : String :=
  "You are a support assistant for Paro Software. Answer the user's question using ONLY the provided source chunks. Follow these rules strictly:\n\n1. Base your answer entirely on the provided sources. Do NOT invent information.\n2. Cite sources using bracket notation like [1], [2], etc. matching the chunk numbers.\n3. If the sources don't contain enough information, say so honestly.\n4. Keep answers concise and actionable for support staff.\n5. Use markdown formatting for readability."

/-- The fixed fallback answer for the empty-results short-circuit. -/
def FALLBACK_ANSWER : String :=
  "I couldn't find any relevant sources to answer your question."

/-- Model of format_context from the retriever: numbered blocks joined by
blank lines. -/
def format_context (results : List SearchResult) : String :=
  String.intercalate "\n\n"
    (results.enum.map (fun ir =>
      "[" ++ pyStrNat (ir.1 + 1) ++ "] " ++ ir.2.citation_label ++ "\n" ++ ir.2.text))

/-- The user message built by USER_TEMPLATE.format(context, question). -/
def userMessage (context question : String) : String :=
  "## Sources\n\n" ++ context ++ "\n\n## Question\n\n" ++ question

/-- Model of _build_citations. -/
def buildCitations (results : List SearchResult) : List Citation :=
  results.map (fun r =>
    ⟨r.citation_label, r.citation_url, r.relevance_score, r.source_type⟩)

/-- The bracket marker `f"[{i}]"` as a character list. -/
def markerChars (n : Nat) : List Char := '[' :: natToDigits n ++ [']']

/-- The bracket marker as a string. -/
def markerStr (n : Nat) : String := String.mk (markerChars n)

/-- Fuel-indexed body of Python `str.replace`: scan left to right,
replacing each non-overlapping occurrence of `pat` and never rescanning
the replacement text.  Each step consumes at least one character, so the
input length suffices as fuel (the code only ever replaces the non-empty
bracket markers). -/
def pyReplaceAux (pat repl : List Char) : Nat → List Char → List Char
  | _, [] => []
  | 0, s => s
  | fuel + 1, c :: rest =>
      if pat ≠ [] ∧ pat.isPrefixOf (c :: rest) then
        repl ++ pyReplaceAux pat repl fuel ((c :: rest).drop pat.length)
      else c :: pyReplaceAux pat repl fuel rest

/-- Model of `text.replace(pat, repl)` for non-empty patterns. -/
def pyReplace (s pat repl : String) : String :=
  String.mk (pyReplaceAux pat.data repl.data s.data.length s.data)

/-- Model of _replace_refs_with_links: one sequential str.replace pass
per result, for markers [1] up to [len(results)]. -/
def replaceRefsWithLinks (text : String) (results : List SearchResult) : String :=
  results.enum.foldl
    (fun t ir => pyReplace t (markerStr (ir.1 + 1)) (resultLink ir.2)) text

/-- Model of generate_cited_answer.  The chat model is a function from
the message list to the text content of its response; the second
component of the result logs every invocation of the model, so "never
invokes the chat model" is observable.  `str(response.content) if
response.content else ""` is the identity on the modelled string
content and is kept literally. -/
def generate_cited_answer (question : String) (results : List SearchResult)
    (llm : List ChatMessage → String) : CitedAnswer × List (List ChatMessage) :=
  if results = [] then
    (⟨FALLBACK_ANSWER, []⟩, [])
  else
    let context := format_context results
    let user := userMessage context question
    let msgs := [ChatMessage.system SYSTEM_PROMPT, ChatMessage.human user]
    let respContent := llm msgs
    let rawAnswer := if respContent = "" then "" else respContent
    let citations := buildCitations results
    let answerWithLinks := replaceRefsWithLinks rawAnswer results
    (⟨answerWithLinks, citations⟩, [msgs])

/-! ## Specification-side statement of the citation substitution (C8) -/

/-- The link text for marker index k (1-based) over a result list; out of
range indexes never arise in use. -/
def linkChars (results : List SearchResult) (k : Nat) : List Char :=
  match results.get? (k - 1) with
  | some r => (resultLink r).data
  | none => []

/-- Does some in-range marker start the suffix, and which?  Mirrors the
claim wording "for each n from 1 to the number of results"; at most one
marker can be a prefix of a given suffix because decimal renderings are
canonical. -/
def findMarkerPrefix (m : Nat) (s : List Char) : Option Nat :=
  ((List.range m).map (fun j => j + 1)).find? fun k =>
    (markerChars k).isPrefixOf s

/-- Stated from the specification sentence of C8: simultaneous one-pass
replacement over the raw answer — every literal occurrence of an in-range
marker [n] is replaced by the link of result n, and every other
character, in particular every out-of-range bracket marker, is copied
through unmodified. -/
def claimSubstAux (links : Nat → List Char) (m : Nat) : Nat → List Char → List Char
  | _, [] => []
  | 0, s => s
  | fuel + 1, c :: rest =>
      match findMarkerPrefix m (c :: rest) with
      | some k =>
          links k ++ claimSubstAux links m fuel ((c :: rest).drop (markerChars k).length)
      | none => c :: claimSubstAux links m fuel rest

/-- The specification-side substitution over a whole string. -/
def claimSubst (links : Nat → List Char) (m : Nat) (s : List Char) : List Char :=
  claimSubstAux links m s.length s

/-- Occurrence of a pattern inside a character list. -/
def OccursIn (pat s : List Char) : Prop := ∃ a b, s = a ++ pat ++ b

/-- Tokens of the raw answer with respect to the in-range markers: either
a plain character or a marker occurrence for result k. -/
inductive RefTok where
  | raw (c : Char)
  | cite (k : Nat)
deriving DecidableEq, Repr

/-- Fuel-indexed greedy left-to-right tokenizer of a character list with
respect to the markers [1] .. [m]; the fuel only has to reach the string
length, which every caller passes. -/
def tokenizeRefsAux (m : Nat) : Nat → List Char → List RefTok
  | _, [] => []
  | 0, _ => []
  | fuel + 1, c :: rest =>
      match findMarkerPrefix m (c :: rest) with
      | some k =>
          RefTok.cite k :: tokenizeRefsAux m fuel ((c :: rest).drop (markerChars k).length)
      | none => RefTok.raw c :: tokenizeRefsAux m fuel rest

/-- Greedy tokenization of a whole character list. -/
def tokenizeRefs (m : Nat) (s : List Char) : List RefTok :=
  tokenizeRefsAux m s.length s

/-- Rendering of a token list, mapping each marker token through `f`. -/
def renderToks (f : Nat → List Char) : List RefTok → List Char
  | [] => []
  | RefTok.raw c :: ts => c :: renderToks f ts
  | RefTok.cite k :: ts => f k ++ renderToks f ts

/-- Partial rendering after the first `i` sequential replacement passes:
markers up to i are already links, the rest are still literal markers. -/
def renderUpTo (links : Nat → List Char) (i : Nat) : List RefTok → List Char :=
  renderToks (fun k => if k ≤ i then links k else markerChars k)

/-- Sequential suffix of the _replace_refs_with_links loop: apply the
replacement passes for results `rs`, whose enumerate offset starts at
`off` (so the first pass of the whole loop has `off = 0` and replaces the
marker [1]). -/
def applyLinksFrom (off : Nat) : List SearchResult → String → String
  | [], t => t
  | r :: rs, t =>
      applyLinksFrom (off + 1) rs (pyReplace t (markerStr (off + 1)) (resultLink r))

/-! ## Helper forms for the store idempotence proof (C2) -/

/-- The upsert loop of add_chunks expressed over prebuilt (uuid,
properties, vector) entries. -/
def upsertEntries (st : StoreState) (entries : List (UUID × StoredProps × List ℚ)) :
    StoreState :=
  entries.foldl (fun acc e => upsertObject acc e.1 e.2.1 e.2.2) st

/-- The entries a chunk list writes, pairing each chunk with its vector
(zip truncates exactly as the Python zip does). -/
def chunkEntries (chunks : List SupportChunk) (vectors : List (List ℚ)) :
    List (UUID × StoredProps × List ℚ) :=
  (chunks.zip vectors).map (fun cv => (cv.1.chunk_id, chunkProps cv.1, cv.2))

/-- The last value written for a key by a run of entries, if any. -/
def lastVal (entries : List (UUID × StoredProps × List ℚ)) (k : UUID) :
    Option (StoredProps × List ℚ) :=
  (entries.reverse.find? (fun e => e.1 = k)).map (fun e => e.2)

/-- Overwrite every object of the store whose key a run of entries
writes, with the last value that run writes for it. -/
def overwriteBy (st : StoreState) (entries : List (UUID × StoredProps × List ℚ)) :
    StoreState :=
  st.map (fun e =>
    match lastVal entries e.1 with
    | some v => (e.1, v.1, v.2)
    | none => e)

/-- Key membership in the store. -/
def containsKey (st : StoreState) (k : UUID) : Bool := st.any (fun e => e.1 = k)

/-! ## Helper lemmas: decimal renderings and string appends -/

theorem string_data_append (a b : String) : (a ++ b).data = a.data ++ b.data := by
  cases a; cases b; rfl

theorem string_append_cancel_left {a b c : String} (h : a ++ b = a ++ c) : b = c := by
  have hd : a.data ++ b.data = a.data ++ c.data := by
    have h2 := congrArg String.data h
    simpa [string_data_append] using h2
  have h3 := List.append_cancel_left hd
  cases b; cases c; exact congrArg String.mk h3

theorem digitsToNat_append (l : List Char) (c : Char) :
    digitsToNat (l ++ [c]) = 10 * digitsToNat l + digitVal c := by
  simp [digitsToNat, List.foldl_append]

theorem digitVal_digitChar {k : Nat} (h : k < 10) :
    digitVal (Nat.digitChar k) = k := by
  interval_cases k <;> rfl

theorem digitChar_isDigit {k : Nat} (h : k < 10) :
    (Nat.digitChar k).isDigit = true := by
  interval_cases k <;> rfl

theorem digitsToNat_natToDigitsAux :
    ∀ fuel n, n < fuel → digitsToNat (natToDigitsAux fuel n) = n := by
  intro fuel
  induction fuel with
  | zero => intro n h; omega
  | succ fuel ih =>
      intro n h
      rw [natToDigitsAux]
      split
      · next h10 => simp [digitsToNat, digitVal_digitChar h10]
      · next h10 =>
          have hd : n / 10 < n := Nat.div_lt_self (by omega) (by omega)
          rw [digitsToNat_append, ih (n / 10) (by omega),
            digitVal_digitChar (Nat.mod_lt n (by omega))]
          omega

theorem digitsToNat_natToDigits (n : Nat) : digitsToNat (natToDigits n) = n :=
  digitsToNat_natToDigitsAux (n + 1) n (by omega)

theorem natToDigits_injective : Function.Injective natToDigits := by
  intro a b h
  have h2 := congrArg digitsToNat h
  simpa [digitsToNat_natToDigits] using h2

theorem pyStrNat_injective : Function.Injective pyStrNat := by
  intro a b h
  exact natToDigits_injective (congrArg String.data h)

theorem natToDigitsAux_head :
    ∀ fuel n, ∃ c l, natToDigitsAux (fuel + 1) n = c :: l ∧ c.isDigit = true := by
  intro fuel
  induction fuel with
  | zero =>
      intro n
      rw [natToDigitsAux]
      split
      · next h => exact ⟨_, _, rfl, digitChar_isDigit h⟩
      · next h =>
          refine ⟨Nat.digitChar (n % 10), [], ?_, digitChar_isDigit (Nat.mod_lt n (by omega))⟩
          simp [natToDigitsAux]
  | succ fuel ih =>
      intro n
      rw [natToDigitsAux]
      split
      · next h => exact ⟨_, _, rfl, digitChar_isDigit h⟩
      · next h =>
          obtain ⟨c, l, he, hd⟩ := ih (n / 10)
          exact ⟨c, l ++ [Nat.digitChar (n % 10)], by rw [he]; simp, hd⟩

theorem natToDigits_head (n : Nat) :
    ∃ c l, natToDigits n = c :: l ∧ c.isDigit = true :=
  natToDigitsAux_head n n

theorem pyStrInt_injective : Function.Injective pyStrInt := by
  intro i j h
  unfold pyStrInt at h
  by_cases hi : i < 0 <;> by_cases hj : j < 0 <;> simp only [hi, hj, if_pos, if_neg,
    if_true, if_false, reduceIte] at h
  · have h2 := string_append_cancel_left h
    have h3 := pyStrNat_injective h2
    omega
  · exfalso
    obtain ⟨c, l, he, hd⟩ := natToDigits_head j.toNat
    have hdata := congrArg String.data h
    rw [string_data_append] at hdata
    have hdata2 : '-' :: natToDigits (-i).toNat = c :: l := by
      simpa [pyStrNat, he] using hdata
    have hc : c = '-' := (List.cons.injEq _ _ _ _ ▸ hdata2).1.symm
    rw [hc] at hd
    simp at hd
  · exfalso
    obtain ⟨c, l, he, hd⟩ := natToDigits_head i.toNat
    have hdata := congrArg String.data h
    rw [string_data_append] at hdata
    have hdata2 : c :: l = '-' :: natToDigits (-j).toNat := by
      simpa [pyStrNat, he] using hdata
    have hc : c = '-' := (List.cons.injEq _ _ _ _ ▸ hdata2).1
    rw [hc] at hd
    simp at hd
  · have h3 := pyStrNat_injective h
    omega

/-! ## Chunk-id computation lemmas -/

theorem from_transcript_chunk_id (t : TranscriptChunk) (now : Datetime) :
    (SupportChunk.from_transcript_chunk t now).chunk_id
      = uuid5 NAMESPACE_URL (t.source_url ++ "|transcript|" ++ pyStrInt t.start_seconds) := rfl

theorem from_frame_chunk_id (t : TranscriptChunk) (now : Datetime) :
    (SupportChunk.from_frame_chunk t now).chunk_id
      = uuid5 NAMESPACE_URL (t.source_url ++ "|frame|" ++ pyStrInt t.start_seconds) := rfl

theorem uuid5_name_inj {ns : UUIDNamespace} {a b : String}
    (h : uuid5 ns a = uuid5 ns b) : a = b := by
  simpa [uuid5] using h

theorem keyed_name_inj {u tag : String} {a b : Int}
    (h : u ++ tag ++ pyStrInt a = u ++ tag ++ pyStrInt b) : a = b := by
  have h2 : (u ++ tag) ++ pyStrInt a = (u ++ tag) ++ pyStrInt b := by
    simpa [String.append_assoc] using h
  exact pyStrInt_injective (string_append_cancel_left h2)

/-- C1: deterministic chunk identity.  from_transcript_chunk keys the id
on (source_url, start_seconds) only: equal keys give the identical
chunk_id whatever the text, and changing start_seconds with text and
source_url fixed gives a different chunk_id.  The same holds for
from_frame_chunk, and from_screenshot_chunk is keyed on image_url alone
(independent of the description text), raising ValueError at construction
when image_url is absent. -/
theorem c1_deterministic_chunk_identity :
    (∀ (t1 t2 : TranscriptChunk) (n1 n2 : Datetime),
        t1.source_url = t2.source_url → t1.start_seconds = t2.start_seconds →
        (SupportChunk.from_transcript_chunk t1 n1).chunk_id
          = (SupportChunk.from_transcript_chunk t2 n2).chunk_id)
    ∧ (∀ (t1 t2 : TranscriptChunk) (n1 n2 : Datetime),
        t1.source_url = t2.source_url → t1.text = t2.text →
        t1.start_seconds ≠ t2.start_seconds →
        (SupportChunk.from_transcript_chunk t1 n1).chunk_id
          ≠ (SupportChunk.from_transcript_chunk t2 n2).chunk_id)
    ∧ (∀ (t1 t2 : TranscriptChunk) (n1 n2 : Datetime),
        t1.source_url = t2.source_url → t1.start_seconds = t2.start_seconds →
        (SupportChunk.from_frame_chunk t1 n1).chunk_id
          = (SupportChunk.from_frame_chunk t2 n2).chunk_id)
    ∧ (∀ (t1 t2 : TranscriptChunk) (n1 n2 : Datetime),
        t1.source_url = t2.source_url → t1.text = t2.text →
        t1.start_seconds ≠ t2.start_seconds →
        (SupportChunk.from_frame_chunk t1 n1).chunk_id
          ≠ (SupportChunk.from_frame_chunk t2 n2).chunk_id)
    ∧ (∀ (w1 w2 : WebChunk) (n1 n2 : Datetime) (u : String),
        w1.image_url = some u → w2.image_url = some u →
        (SupportChunk.from_screenshot_chunk w1 n1).map (fun c => c.chunk_id)
          = (SupportChunk.from_screenshot_chunk w2 n2).map (fun c => c.chunk_id))
    ∧ (∀ (w1 w2 : WebChunk) (n1 n2 : Datetime) (u1 u2 : String),
        w1.image_url = some u1 → w2.image_url = some u2 → u1 ≠ u2 →
        (SupportChunk.from_screenshot_chunk w1 n1).map (fun c => c.chunk_id)
          ≠ (SupportChunk.from_screenshot_chunk w2 n2).map (fun c => c.chunk_id))
    ∧ (∀ (w : WebChunk) (now : Datetime), w.image_url = none →
        SupportChunk.from_screenshot_chunk w now
          = Except.error (PyErr.valueError
              "from_screenshot_chunk requires chunk.image_url to be set")) := by
  refine ⟨?_, ?_, ?_, ?_, ?_, ?_, ?_⟩
  · intro t1 t2 n1 n2 hu hs
    rw [from_transcript_chunk_id, from_transcript_chunk_id, hu, hs]
  · intro t1 t2 n1 n2 hu _ht hs hid
    rw [from_transcript_chunk_id, from_transcript_chunk_id] at hid
    have hname := uuid5_name_inj hid
    rw [hu] at hname
    exact hs (keyed_name_inj hname)
  · intro t1 t2 n1 n2 hu hs
    rw [from_frame_chunk_id, from_frame_chunk_id, hu, hs]
  · intro t1 t2 n1 n2 hu _ht hs hid
    rw [from_frame_chunk_id, from_frame_chunk_id] at hid
    have hname := uuid5_name_inj hid
    rw [hu] at hname
    exact hs (keyed_name_inj hname)
  · intro w1 w2 n1 n2 u h1 h2
    simp [SupportChunk.from_screenshot_chunk, h1, h2, SupportChunk.init, Except.map]
  · intro w1 w2 n1 n2 u1 u2 h1 h2 hne
    simp [SupportChunk.from_screenshot_chunk, h1, h2, SupportChunk.init, uuid5,
      Except.map]
    exact hne
  · intro w now h
    simp [SupportChunk.from_screenshot_chunk, h]

/-- Witness for C1 at concrete inputs: same key gives the same id, a
changed key gives a different id, and a missing image_url errors. -/
theorem c1_witness :
    (SupportChunk.from_transcript_chunk ⟨"take one", "https://yt/v=a", "V", 5, 35⟩ ⟨"T1"⟩).chunk_id
      = (SupportChunk.from_transcript_chunk ⟨"take two", "https://yt/v=a", "V", 5, 35⟩ ⟨"T2"⟩).chunk_id
    ∧ (SupportChunk.from_transcript_chunk ⟨"same", "https://yt/v=a", "V", 5, 35⟩ ⟨"T1"⟩).chunk_id
      ≠ (SupportChunk.from_transcript_chunk ⟨"same", "https://yt/v=a", "V", 6, 36⟩ ⟨"T1"⟩).chunk_id
    ∧ (SupportChunk.from_frame_chunk ⟨"desc one", "https://yt/v=a", "V", 30, 60⟩ ⟨"T1"⟩).chunk_id
      = (SupportChunk.from_frame_chunk ⟨"desc two", "https://yt/v=a", "V", 30, 60⟩ ⟨"T2"⟩).chunk_id
    ∧ (SupportChunk.from_frame_chunk ⟨"same", "https://yt/v=a", "V", 0, 30⟩ ⟨"T1"⟩).chunk_id
      ≠ (SupportChunk.from_frame_chunk ⟨"same", "https://yt/v=a", "V", 30, 60⟩ ⟨"T1"⟩).chunk_id
    ∧ (SupportChunk.from_screenshot_chunk
          ⟨"desc one", "https://d/p", "D", none, some "https://img/x.png", none⟩ ⟨"T1"⟩).map (fun c => c.chunk_id)
      = (SupportChunk.from_screenshot_chunk
          ⟨"desc two", "https://d/p", "D", none, some "https://img/x.png", none⟩ ⟨"T2"⟩).map (fun c => c.chunk_id)
    ∧ (SupportChunk.from_screenshot_chunk
          ⟨"same", "https://d/p", "D", none, some "https://img/x.png", none⟩ ⟨"T1"⟩).map (fun c => c.chunk_id)
      ≠ (SupportChunk.from_screenshot_chunk
          ⟨"same", "https://d/p", "D", none, some "https://img/y.png", none⟩ ⟨"T1"⟩).map (fun c => c.chunk_id)
    ∧ SupportChunk.from_screenshot_chunk
          ⟨"desc", "https://d/p", "D", none, none, none⟩ ⟨"T1"⟩
      = Except.error (PyErr.valueError
          "from_screenshot_chunk requires chunk.image_url to be set") := by
  obtain ⟨h1, h2, h3, h4, h5, h6, h7⟩ := c1_deterministic_chunk_identity
  exact ⟨h1 _ _ _ _ rfl rfl, h2 _ _ _ _ rfl rfl (by decide),
    h3 _ _ _ _ rfl rfl, h4 _ _ _ _ rfl rfl (by decide),
    h5 _ _ _ _ _ rfl rfl, h6 _ _ _ _ _ _ rfl rfl (by decide), h7 _ _ rfl⟩

/-- C10: a SupportChunk constructed without an explicit chunk_id always
receives the deterministic fallback `uuid5(NAMESPACE_URL, source_url +
"|" + text)` computed by model_post_init — in particular from_web_chunk
on a WebChunk with no chunk_index — and the construction is a pure
function, so equal (source_url, text) always yield the identical id; no
fresh-random-UUID path exists. -/
theorem c10_default_chunk_id_fallback :
    (∀ (text : String) (st : SourceType) (url name : String) (ts : Option Int)
        (heading : Option String) (uh : String) (ia : Datetime),
        (SupportChunk.init none text st url name ts heading uh ia).chunk_id
          = uuid5 NAMESPACE_URL (url ++ "|" ++ text))
    ∧ (∀ (w : WebChunk) (now : Datetime), w.chunk_index = none →
        (SupportChunk.from_web_chunk w now).chunk_id
          = uuid5 NAMESPACE_URL (w.source_url ++ "|" ++ w.text))
    ∧ (∀ (w1 w2 : WebChunk) (n1 n2 : Datetime),
        w1.chunk_index = none → w2.chunk_index = none →
        w1.source_url = w2.source_url → w1.text = w2.text →
        (SupportChunk.from_web_chunk w1 n1).chunk_id
          = (SupportChunk.from_web_chunk w2 n2).chunk_id) := by
  refine ⟨?_, ?_, ?_⟩
  · intro text st url name ts heading uh ia; rfl
  · intro w now h
    simp [SupportChunk.from_web_chunk, h, SupportChunk.init]
  · intro w1 w2 n1 n2 h1 h2 hu ht
    simp [SupportChunk.from_web_chunk, h1, h2, SupportChunk.init, hu, ht]

/-- Witness for C10 at concrete inputs. -/
theorem c10_witness :
    (SupportChunk.from_web_chunk
        ⟨"body text", "https://docs/p", "Docs", some "Setup", none, none⟩ ⟨"T1"⟩).chunk_id
      = uuid5 NAMESPACE_URL ("https://docs/p" ++ "|" ++ "body text")
    ∧ (SupportChunk.from_web_chunk
        ⟨"body text", "https://docs/p", "Docs", some "Setup", none, none⟩ ⟨"T1"⟩).chunk_id
      = (SupportChunk.from_web_chunk
        ⟨"body text", "https://docs/p", "Other name", none, none, none⟩ ⟨"T2"⟩).chunk_id := by
  obtain ⟨_h1, h2, h3⟩ := c10_default_chunk_id_fallback
  exact ⟨h2 _ _ rfl, h3 _ _ _ _ rfl rfl rfl rfl⟩

/-! ## SHA-256 digest format lemmas -/

theorem wordHex_length (w : Nat) : (wordHex w).length = 8 := rfl

theorem sha256hex_length (s : String) : (sha256hex s).length = 64 := by
  show (sha256hex s).data.length = 64
  simp [sha256hex, List.length_append, wordHex]

theorem isLowerHex_digitChar_mod16 (n : Nat) :
    isLowerHex (Nat.digitChar (n % 16)) = true := by
  have h : n % 16 < 16 := Nat.mod_lt _ (by omega)
  revert h
  generalize n % 16 = k
  intro h
  interval_cases k <;> rfl

theorem wordHex_mem_isLowerHex {w : Nat} {c : Char} (hc : c ∈ wordHex w) :
    isLowerHex c = true := by
  simp [wordHex] at hc
  rcases hc with rfl | rfl | rfl | rfl | rfl | rfl | rfl | rfl <;>
    exact isLowerHex_digitChar_mod16 _

theorem sha256hex_mem_isLowerHex (s : String) :
    ∀ c ∈ (sha256hex s).data, isLowerHex c = true := by
  intro c hc
  simp only [sha256hex, List.mem_append] at hc
  rcases hc with ((((((h | h) | h) | h) | h) | h) | h) | h <;>
    exact wordHex_mem_isLowerHex h

theorem sha256hex_ne_empty (s : String) : sha256hex s ≠ "" := by
  intro h
  have h2 := congrArg String.length h
  rw [sha256hex_length] at h2
  exact absurd h2 (by decide)

set_option maxRecDepth 1000000 in
/-- C9 counterexample: the claim quantifies over every SupportChunk, but
a SupportChunk constructed with a caller-supplied non-empty url_hash
keeps it verbatim (`model_post_init` only fills a falsy url_hash), so two
chunks with different source_url can share the same url_hash, and the
url_hash need not be the SHA-256 digest of source_url. -/
theorem c9_counterexample :
    (SupportChunk.init none "t" SourceType.web "https://a" "n" none none "zzz" ⟨"T"⟩).url_hash
      = (SupportChunk.init none "t" SourceType.web "https://b" "n" none none "zzz" ⟨"T"⟩).url_hash
    ∧ (SupportChunk.init none "t" SourceType.web "https://a" "n" none none "zzz" ⟨"T"⟩).source_url
      ≠ (SupportChunk.init none "t" SourceType.web "https://b" "n" none none "zzz" ⟨"T"⟩).source_url
    ∧ (SupportChunk.init none "t" SourceType.web "https://a" "n" none none "zzz" ⟨"T"⟩).url_hash
      ≠ sha256hex "https://a" := by
  refine ⟨rfl, by decide, ?_⟩
  intro h
  have h2 := congrArg String.length h
  rw [sha256hex_length] at h2
  exact absurd h2 (by decide)

/-- C9 (amended): for every SupportChunk constructed without a
caller-supplied url_hash (the empty default, as every in-repo constructor
does), url_hash is the 64-character lowercase-hex SHA-256 digest of
source_url — hence non-empty and a pure function of source_url: equal
source_url gives equal url_hash regardless of every other field, and
chunks whose source_url digests differ (every concrete collision-free
pair) have different url_hash. -/
theorem c9_url_hash_amended :
    ∀ (cid : Option UUID) (text : String) (st : SourceType) (url name : String)
      (ts : Option Int) (heading : Option String) (ia : Datetime),
      (SupportChunk.init cid text st url name ts heading "" ia).url_hash = sha256hex url
      ∧ (SupportChunk.init cid text st url name ts heading "" ia).url_hash ≠ ""
      ∧ ((SupportChunk.init cid text st url name ts heading "" ia).url_hash).length = 64
      ∧ (∀ c ∈ ((SupportChunk.init cid text st url name ts heading "" ia).url_hash).data,
          isLowerHex c = true)
      ∧ (∀ (cid2 : Option UUID) (text2 : String) (st2 : SourceType) (name2 : String)
          (ts2 : Option Int) (heading2 : Option String) (ia2 : Datetime),
          (SupportChunk.init cid2 text2 st2 url name2 ts2 heading2 "" ia2).url_hash
            = (SupportChunk.init cid text st url name ts heading "" ia).url_hash)
      ∧ (∀ (cid2 : Option UUID) (text2 : String) (st2 : SourceType) (url2 name2 : String)
          (ts2 : Option Int) (heading2 : Option String) (ia2 : Datetime),
          sha256hex url2 ≠ sha256hex url →
          (SupportChunk.init cid2 text2 st2 url2 name2 ts2 heading2 "" ia2).url_hash
            ≠ (SupportChunk.init cid text st url name ts heading "" ia).url_hash) := by
  intro cid text st url name ts heading ia
  have hh : ∀ (cid2 : Option UUID) (text2 : String) (st2 : SourceType) (url2 name2 : String)
      (ts2 : Option Int) (heading2 : Option String) (ia2 : Datetime),
      (SupportChunk.init cid2 text2 st2 url2 name2 ts2 heading2 "" ia2).url_hash
        = sha256hex url2 := by
    intro cid2 text2 st2 url2 name2 ts2 heading2 ia2; rfl
  refine ⟨hh cid text st url name ts heading ia, ?_, ?_, ?_, ?_, ?_⟩
  · rw [hh]; exact sha256hex_ne_empty url
  · rw [hh]; exact sha256hex_length url
  · rw [hh]; exact sha256hex_mem_isLowerHex url
  · intro cid2 text2 st2 name2 ts2 heading2 ia2
    rw [hh, hh]
  · intro cid2 text2 st2 url2 name2 ts2 heading2 ia2 hne
    rw [hh, hh]
    exact hne

set_option maxRecDepth 1000000 in
/-- Witness for the amended C9 at concrete inputs, with the
collision-freedom hypothesis discharged by computing both digests. -/
theorem c9_witness :
    (SupportChunk.init none "t" SourceType.web "https://a" "n" none none "" ⟨"T"⟩).url_hash
      = sha256hex "https://a"
    ∧ (SupportChunk.init none "t" SourceType.web "https://a" "n" none none "" ⟨"T"⟩).url_hash ≠ ""
    ∧ (SupportChunk.init (some (uuid5 NAMESPACE_URL "x")) "other text" SourceType.video
        "https://a" "m" (some 3) (some "h") "" ⟨"T2"⟩).url_hash
      = (SupportChunk.init none "t" SourceType.web "https://a" "n" none none "" ⟨"T"⟩).url_hash
    ∧ (SupportChunk.init none "t" SourceType.web "https://b" "n" none none "" ⟨"T"⟩).url_hash
      ≠ (SupportChunk.init none "t" SourceType.web "https://a" "n" none none "" ⟨"T"⟩).url_hash := by
  obtain ⟨h1, h2, _h3, _h4, h5, h6⟩ :=
    c9_url_hash_amended none "t" SourceType.web "https://a" "n" none none ⟨"T"⟩
  exact ⟨h1, h2,
    h5 (some (uuid5 NAMESPACE_URL "x")) "other text" SourceType.video "m" (some 3)
      (some "h") ⟨"T2"⟩,
    h6 none "t" SourceType.web "https://b" "n" none none ⟨"T"⟩ (by decide)⟩

/-! ## C3: chunk_index behaviour of the web splitter -/

theorem foldr_webChunk_index {sourceUrl sourceName : String}
    {heading : Option String} (l : List (List String)) {c : WebChunk}
    (hc : c ∈ l.foldr (fun chunkWords acc =>
        let chunkText := pyStrip (joinSpace chunkWords)
        if chunkText ≠ "" then
          (⟨chunkText, sourceUrl, sourceName, heading, none, none⟩ : WebChunk) :: acc
        else acc) []) :
    c.chunk_index = none := by
  induction l with
  | nil => simp at hc
  | cons w ws ih =>
      simp only [List.foldr_cons] at hc
      split at hc
      · rcases List.mem_cons.mp hc with h | h
        · rw [h]
        · exact ih h
      · exact ih hc

theorem splitByTokens_chunk_index {text sourceUrl sourceName : String}
    {heading : Option String} {tt : Nat} {c : WebChunk}
    (hc : c ∈ splitByTokens text sourceUrl sourceName heading tt) :
    c.chunk_index = none := by
  simp only [splitByTokens] at hc
  split at hc
  · simp at hc
  · exact foldr_webChunk_index _ hc

theorem sectionsLoop_chunk_index (cs : List Char) (u n : String) (tt : Nat) :
    ∀ (ms : List HeaderMatch) (c : WebChunk),
      c ∈ sectionsLoop cs u n tt ms → c.chunk_index = none := by
  intro ms
  induction ms with
  | nil => intro c hc; simp [sectionsLoop] at hc
  | cons m rest ih =>
      intro c hc
      simp only [sectionsLoop] at hc
      rcases List.mem_append.mp hc with h | h
      · split at h
        · exact splitByTokens_chunk_index h
        · simp at h
      · exact ih c h

/-- C3 (amended): split_by_sections never assigns a chunk_index — every
WebChunk of its output, across the pre-header segment and every section,
carries chunk_index None (the WebChunk default; _split_by_tokens
constructs chunks without the field). -/
theorem c3_chunk_index_never_assigned :
    ∀ (content sourceUrl sourceName : String) (targetTokens : Nat) (c : WebChunk),
      c ∈ splitBySections content sourceUrl sourceName targetTokens →
      c.chunk_index = none := by
  intro content u n tt c hc
  rw [splitBySections] at hc
  rcases hm : headerMatches content.data with _ | ⟨m0, ms⟩ <;> rw [hm] at hc
  · exact splitByTokens_chunk_index hc
  · rcases List.mem_append.mp hc with h | h
    · split at h
      · exact splitByTokens_chunk_index h
      · simp at h
    · exact sectionsLoop_chunk_index _ _ _ _ _ _ h

set_option maxRecDepth 1000000 in
/-- C3 counterexample: on a concrete headerless page the emitted chunk
carries chunk_index None, not the strictly increasing integer starting at
0 that the claim requires. -/
theorem c3_counterexample :
    (splitBySections "Some plain text" "https://ex.com" "Docs" 400).map
        (fun c => c.chunk_index) = [none]
    ∧ (none : Option Int) ≠ some 0 := by
  exact ⟨by decide, by decide⟩

set_option maxRecDepth 1000000 in
/-- Witness for the amended C3: the concrete output chunk of a concrete
page is in the output and carries chunk_index None. -/
theorem c3_witness :
    (⟨"Some plain text", "https://ex.com", "Docs", none, none, none⟩ : WebChunk)
        ∈ splitBySections "Some plain text" "https://ex.com" "Docs" 400
    ∧ (⟨"Some plain text", "https://ex.com", "Docs", none, none, none⟩ : WebChunk).chunk_index
        = none := by
  have hm : (⟨"Some plain text", "https://ex.com", "Docs", none, none, none⟩ : WebChunk)
      ∈ splitBySections "Some plain text" "https://ex.com" "Docs" 400 := by decide
  exact ⟨hm, c3_chunk_index_never_assigned _ _ _ _ _ hm⟩

/-! ## C5: segment chunking lemmas -/

theorem wordCount_empty : wordCount "" = 0 := rfl

theorem strippedTexts_cons (s : Segment) (rest : List Segment) :
    strippedTexts (s :: rest)
      = if pyStrip s.text = "" then strippedTexts rest
        else pyStrip s.text :: strippedTexts rest := by
  simp only [strippedTexts, List.map_cons, List.filter_cons]
  split
  · next h => simp_all
  · next h => simp_all

theorem sumTokenEstimates_cons (s : Segment) (rest : List Segment) :
    sumTokenEstimates (s :: rest)
      = tokenEstimate (wordCount (pyStrip s.text)) + sumTokenEstimates rest := by
  simp [sumTokenEstimates]

theorem sumTokenEstimates_of_stripped_nil :
    ∀ (segs : List Segment), strippedTexts segs = [] → sumTokenEstimates segs = 0 := by
  intro segs
  induction segs with
  | nil => intro _; rfl
  | cons s rest ih =>
      intro h
      rw [strippedTexts_cons] at h
      split at h
      · next he =>
          rw [sumTokenEstimates_cons, he, wordCount_empty, ih h]
          rfl
      · next he => simp at h

theorem chunkSegmentsAux_single (u n : String) (tt : Nat) (la : Segment) :
    ∀ (segs : List Segment) (prev : Option Segment) (isF : Bool)
      (cur : List String) (est : Nat) (cs : ℚ),
      est + sumTokenEstimates segs ≤ tt →
      (cur ≠ [] ∨ strippedTexts segs ≠ []) →
      (chunkSegmentsAux u n tt la segs prev isF cur est cs).map (fun c => c.text)
        = [joinSpace (cur ++ strippedTexts segs)] := by
  intro segs
  induction segs with
  | nil =>
      intro prev isF cur est cs _hsum hne
      have hc : cur ≠ [] := by
        rcases hne with h | h
        · exact h
        · simp [strippedTexts] at h
      simp [chunkSegmentsAux, hc, strippedTexts]
  | cons seg rest ih =>
      intro prev isF cur est cs hsum hne
      simp only [chunkSegmentsAux]
      by_cases hT : pyStrip seg.text = ""
      · rw [if_pos hT]
        have hsum2 : est + sumTokenEstimates rest ≤ tt := by
          rw [sumTokenEstimates_cons, hT, wordCount_empty] at hsum
          simpa [tokenEstimate] using hsum
        have hne2 : cur ≠ [] ∨ strippedTexts rest ≠ [] := by
          rcases hne with h | h
          · exact Or.inl h
          · rw [strippedTexts_cons, if_pos hT] at h
            exact Or.inr h
        rw [ih (some seg) false cur est cs hsum2 hne2,
          strippedTexts_cons, if_pos hT]
      · rw [if_neg hT]
        have hle : est + tokenEstimate (wordCount (pyStrip seg.text)) ≤ tt := by
          rw [sumTokenEstimates_cons] at hsum
          omega
        rw [if_neg (show ¬(est + tokenEstimate (wordCount (pyStrip seg.text)) > tt
            ∧ cur ≠ []) from fun h => absurd h.1 (by omega))]
        have hsum2 : (est + tokenEstimate (wordCount (pyStrip seg.text)))
            + sumTokenEstimates rest ≤ tt := by
          rw [sumTokenEstimates_cons] at hsum
          omega
        have hne2 : cur ++ [pyStrip seg.text] ≠ [] ∨ strippedTexts rest ≠ [] := by
          left
          simp
        rw [ih (some seg) false (cur ++ [pyStrip seg.text])
          (est + tokenEstimate (wordCount (pyStrip seg.text)))
          (if isF || est == 0 then seg.start else cs) hsum2 hne2,
          strippedTexts_cons, if_neg hT, List.append_assoc, List.singleton_append]

theorem chunkSegmentsAux_length_pos (u n : String) (tt : Nat) (la : Segment) :
    ∀ (segs : List Segment) (prev : Option Segment) (isF : Bool)
      (cur : List String) (est : Nat) (cs : ℚ),
      (cur ≠ [] ∨ strippedTexts segs ≠ []) →
      1 ≤ (chunkSegmentsAux u n tt la segs prev isF cur est cs).length := by
  intro segs
  induction segs with
  | nil =>
      intro prev isF cur est cs hne
      have hc : cur ≠ [] := by
        rcases hne with h | h
        · exact h
        · simp [strippedTexts] at h
      simp [chunkSegmentsAux, hc]
  | cons seg rest ih =>
      intro prev isF cur est cs hne
      simp only [chunkSegmentsAux]
      by_cases hT : pyStrip seg.text = ""
      · rw [if_pos hT]
        refine ih (some seg) false cur est cs ?_
        rcases hne with h | h
        · exact Or.inl h
        · rw [strippedTexts_cons, if_pos hT] at h
          exact Or.inr h
      · rw [if_neg hT]
        split
        · simp
        · refine ih (some seg) false (cur ++ [pyStrip seg.text]) _ _ ?_
          left
          simp

theorem chunkSegmentsAux_splits (u n : String) (tt : Nat) (la : Segment) :
    ∀ (segs : List Segment) (prev : Option Segment) (isF : Bool)
      (cur : List String) (est : Nat) (cs : ℚ),
      cur ≠ [] → tt < est + sumTokenEstimates segs → strippedTexts segs ≠ [] →
      2 ≤ (chunkSegmentsAux u n tt la segs prev isF cur est cs).length := by
  intro segs
  induction segs with
  | nil =>
      intro prev isF cur est cs _ _ hrem
      simp [strippedTexts] at hrem
  | cons seg rest ih =>
      intro prev isF cur est cs hc hsum hrem
      simp only [chunkSegmentsAux]
      by_cases hT : pyStrip seg.text = ""
      · rw [if_pos hT]
        refine ih (some seg) false cur est cs hc ?_ ?_
        · rw [sumTokenEstimates_cons, hT, wordCount_empty] at hsum
          simpa [tokenEstimate] using hsum
        · rw [strippedTexts_cons, if_pos hT] at hrem
          exact hrem
      · rw [if_neg hT]
        by_cases hsplit : est + tokenEstimate (wordCount (pyStrip seg.text)) > tt
        · rw [if_pos ⟨hsplit, hc⟩]
          have h1 := chunkSegmentsAux_length_pos u n tt la rest (some seg) false
            [pyStrip seg.text] (tokenEstimate (wordCount (pyStrip seg.text)))
            seg.start (Or.inl (by simp))
          simp only [List.length_cons]
          omega
        · rw [if_neg (fun h => absurd h.1 hsplit)]
          by_cases hrest : strippedTexts rest = []
          · exfalso
            have := sumTokenEstimates_of_stripped_nil rest hrest
            rw [sumTokenEstimates_cons, this] at hsum
            omega
          · refine ih (some seg) false (cur ++ [pyStrip seg.text])
              (est + tokenEstimate (wordCount (pyStrip seg.text))) _ (by simp) ?_ hrest
            rw [sumTokenEstimates_cons] at hsum
            omega

theorem chunkSegmentsAux_start_splits (u n : String) (tt : Nat) (la : Segment) :
    ∀ (segs : List Segment) (prev : Option Segment) (isF : Bool) (cs : ℚ),
      2 ≤ (strippedTexts segs).length → tt < sumTokenEstimates segs →
      2 ≤ (chunkSegmentsAux u n tt la segs prev isF [] 0 cs).length := by
  intro segs
  induction segs with
  | nil =>
      intro prev isF cs h2 _
      simp [strippedTexts] at h2
  | cons seg rest ih =>
      intro prev isF cs h2 hsum
      simp only [chunkSegmentsAux]
      by_cases hT : pyStrip seg.text = ""
      · rw [if_pos hT]
        refine ih (some seg) false cs ?_ ?_
        · rw [strippedTexts_cons, if_pos hT] at h2
          exact h2
        · rw [sumTokenEstimates_cons, hT, wordCount_empty] at hsum
          simpa [tokenEstimate] using hsum
      · rw [if_neg hT,
          if_neg (show ¬(0 + tokenEstimate (wordCount (pyStrip seg.text)) > tt
            ∧ ([] : List String) ≠ []) from fun h => absurd h.2 (by simp))]
        refine chunkSegmentsAux_splits u n tt la rest (some seg) false
          _ _ _ (by simp) ?_ ?_
        · rw [sumTokenEstimates_cons] at hsum
          omega
        · rw [strippedTexts_cons, if_neg hT] at h2
          intro hnil
          rw [hnil] at h2
          simp at h2

theorem chunkSegmentsAux_texts (u n : String) (tt : Nat) (la : Segment) :
    ∀ (segs : List Segment) (prev : Option Segment) (isF : Bool)
      (cur : List String) (est : Nat) (cs : ℚ) (c : TranscriptChunk),
      c ∈ chunkSegmentsAux u n tt la segs prev isF cur est cs →
      ∃ l, l ≠ [] ∧ c.text = joinSpace l
        ∧ ∀ s ∈ l, s ∈ cur ∨ s ∈ strippedTexts segs := by
  intro segs
  induction segs with
  | nil =>
      intro prev isF cur est cs c hc
      rw [chunkSegmentsAux] at hc
      split at hc
      · next hcur =>
          rcases List.mem_singleton.mp hc with rfl
          exact ⟨cur, hcur, rfl, fun s hs => Or.inl hs⟩
      · simp at hc
  | cons seg rest ih =>
      intro prev isF cur est cs c hc
      simp only [chunkSegmentsAux] at hc
      by_cases hT : pyStrip seg.text = ""
      · rw [if_pos hT] at hc
        obtain ⟨l, hl, htext, hmem⟩ := ih (some seg) false cur est cs c hc
        refine ⟨l, hl, htext, fun s hs => ?_⟩
        rcases hmem s hs with h | h
        · exact Or.inl h
        · right
          rw [strippedTexts_cons, if_pos hT]
          exact h
      · rw [if_neg hT] at hc
        have hsub : ∀ s, s ∈ cur ∨ s ∈ pyStrip seg.text :: strippedTexts rest →
            s ∈ cur ∨ s ∈ strippedTexts (seg :: rest) := by
          intro s hs
          rw [strippedTexts_cons, if_neg hT]
          exact hs
        split at hc
        · next hcond =>
            rcases List.mem_cons.mp hc with rfl | hctail
            · exact ⟨cur, hcond.2, rfl, fun s hs => Or.inl hs⟩
            · obtain ⟨l, hl, htext, hmem⟩ := ih (some seg) false [pyStrip seg.text]
                (tokenEstimate (wordCount (pyStrip seg.text))) seg.start c hctail
              refine ⟨l, hl, htext, fun s hs => hsub s ?_⟩
              rcases hmem s hs with h | h
              · right
                rcases List.mem_singleton.mp h with rfl
                exact List.mem_cons_self _ _
              · right
                exact List.mem_cons_of_mem _ h
        · obtain ⟨l, hl, htext, hmem⟩ := ih (some seg) false (cur ++ [pyStrip seg.text])
            (est + tokenEstimate (wordCount (pyStrip seg.text)))
            (if isF || est == 0 then seg.start else cs) c hc
          refine ⟨l, hl, htext, fun s hs => hsub s ?_⟩
          rcases hmem s hs with h | h
          · rcases List.mem_append.mp h with h2 | h2
            · exact Or.inl h2
            · right
              rcases List.mem_singleton.mp h2 with rfl
              exact List.mem_cons_self _ _
          · right
            exact List.mem_cons_of_mem _ h

/-- C5 (amended): with the per-segment token estimate the code computes,
`int(word_count * 1.3)` (truncation, not rounding), chunk_segments (a)
emits at least two TranscriptChunks whenever at least two non-whitespace
segments are present and the estimates sum past target_tokens (a single
oversized segment is never split); (b) emits exactly one TranscriptChunk
whose text is all non-whitespace segment texts, stripped, joined by
single spaces in input order, whenever some non-whitespace segment exists
and the combined estimate is below target_tokens; and (c) every emitted
chunk text is a space-join of stripped non-whitespace segment texts, so
whitespace-only segments appear in no emitted chunk. -/
theorem c5_token_budget_amended :
    (∀ (segs : List Segment) (u n : String) (tt : Nat),
        2 ≤ (strippedTexts segs).length → tt < sumTokenEstimates segs →
        2 ≤ (chunkSegments segs u n tt).length)
    ∧ (∀ (segs : List Segment) (u n : String) (tt : Nat),
        strippedTexts segs ≠ [] → sumTokenEstimates segs < tt →
        (chunkSegments segs u n tt).map (fun c => c.text)
          = [joinSpace (strippedTexts segs)])
    ∧ (∀ (segs : List Segment) (u n : String) (tt : Nat) (c : TranscriptChunk),
        c ∈ chunkSegments segs u n tt →
        ∃ l, l ≠ [] ∧ c.text = joinSpace l ∧ ∀ s ∈ l, s ∈ strippedTexts segs) := by
  have hlast : ∀ (segs : List Segment), strippedTexts segs ≠ [] → segs ≠ [] := by
    intro segs h hnil
    rw [hnil] at h
    simp [strippedTexts] at h
  refine ⟨?_, ?_, ?_⟩
  · intro segs u n tt h2 hsum
    have hne : segs ≠ [] := hlast segs (by intro h; rw [h] at h2; simp at h2)
    rw [chunkSegments]
    cases hl : segs.getLast? with
    | none => exact absurd (List.getLast?_eq_none_iff.mp hl) hne
    | some la => exact chunkSegmentsAux_start_splits u n tt la segs none true 0 h2 hsum
  · intro segs u n tt hne hsum
    rw [chunkSegments]
    cases hl : segs.getLast? with
    | none => exact absurd (List.getLast?_eq_none_iff.mp hl) (hlast segs hne)
    | some la =>
        have h := chunkSegmentsAux_single u n tt la segs none true [] 0 0
          (by omega) (Or.inr hne)
        simpa using h
  · intro segs u n tt c hc
    rw [chunkSegments] at hc
    cases hl : segs.getLast? with
    | none =>
        rw [hl] at hc
        simp at hc
    | some la =>
        rw [hl] at hc
        obtain ⟨l, hlne, htext, hmem⟩ :=
          chunkSegmentsAux_texts u n tt la segs none true [] 0 0 c hc
        refine ⟨l, hlne, htext, fun s hs => ?_⟩
        rcases hmem s hs with h | h
        · simp at h
        · exact h

/-- C5 counterexample: the claim is false as stated, in two ways.  A
single two-word segment has claimed estimate round(2 * 1.3) = 3 greater
than a target of 1, yet chunk_segments emits exactly one chunk (the split
guard requires a non-empty buffer).  And two three-word segments have
claimed estimates round(3 * 1.3) = 4 each, summing to 8 past a target of
7, yet the code estimates int(3 * 1.3) = 3 each and again emits exactly
one chunk. -/
theorem c5_counterexample :
    (sumClaimTokenEstimates [⟨"a b", 0, 1⟩] = 3
      ∧ 1 < sumClaimTokenEstimates [⟨"a b", 0, 1⟩]
      ∧ (chunkSegments [⟨"a b", 0, 1⟩] "u" "n" 1).length = 1)
    ∧ (sumClaimTokenEstimates [⟨"a b c", 0, 1⟩, ⟨"d e f", 1, 1⟩] = 8
      ∧ 7 < sumClaimTokenEstimates [⟨"a b c", 0, 1⟩, ⟨"d e f", 1, 1⟩]
      ∧ (chunkSegments [⟨"a b c", 0, 1⟩, ⟨"d e f", 1, 1⟩] "u" "n" 7).length = 1) := by
  exact ⟨⟨by decide, by decide, by decide⟩, ⟨by decide, by decide, by decide⟩⟩

/-- Witness for the amended C5 at concrete inputs. -/
theorem c5_witness :
    2 ≤ (chunkSegments [⟨"a b c", 0, 1⟩, ⟨"d e f", 1, 1⟩] "u" "n" 5).length
    ∧ (chunkSegments [⟨"hello world", 0, 3⟩, ⟨"  ", 3, 1⟩, ⟨"again", 4, 2⟩]
          "u" "n" 400).map (fun c => c.text)
        = [joinSpace (strippedTexts
            [⟨"hello world", 0, 3⟩, ⟨"  ", 3, 1⟩, ⟨"again", 4, 2⟩])]
    ∧ ∃ c, c ∈ chunkSegments [⟨"hello world", 0, 3⟩, ⟨"  ", 3, 1⟩, ⟨"again", 4, 2⟩]
          "u" "n" 400
        ∧ ∃ l, l ≠ [] ∧ c.text = joinSpace l
            ∧ ∀ s ∈ l, s ∈ strippedTexts
                [⟨"hello world", 0, 3⟩, ⟨"  ", 3, 1⟩, ⟨"again", 4, 2⟩] := by
  obtain ⟨h1, h2, h3⟩ := c5_token_budget_amended
  refine ⟨h1 _ "u" "n" 5 (by decide) (by decide), h2 _ "u" "n" 400 (by decide) (by decide), ?_⟩
  cases hl : chunkSegments [⟨"hello world", 0, 3⟩, ⟨"  ", 3, 1⟩, ⟨"again", 4, 2⟩]
      "u" "n" 400 with
  | nil =>
      have hmap := h2 [⟨"hello world", 0, 3⟩, ⟨"  ", 3, 1⟩, ⟨"again", 4, 2⟩]
        "u" "n" 400 (by decide) (by decide)
      rw [hl] at hmap
      simp at hmap
  | cons c rest =>
      refine ⟨c, by simp [hl], ?_⟩
      exact h3 _ "u" "n" 400 c (by simp [hl])

/-- C6: audio-fallback gating of fetch_transcript_chunks.  When the
captions fetch fails with transcripts-disabled or no-transcript-found,
the Voxtral fallback is attempted if and only if a speech-to-text API key
is configured (non-empty): with a key, a successful fallback yields the
chunks built from its segments and a failed fallback yields the empty
list; without a key the empty list is returned and the fallback is never
attempted.  When the captions fetch fails with IP-blocked, the empty list
is returned and the fallback is never attempted, regardless of the
key. -/
theorem c6_audio_fallback_gating :
    ∀ (vid : String) (captions : CaptionsOutcome) (voxtral : VoxtralOutcome)
      (videoUrl sourceName : String) (tt : Nat) (key : String),
      (captions = CaptionsOutcome.transcriptsDisabled
          ∨ captions = CaptionsOutcome.noTranscriptFound →
        ((fetch_transcript_chunks (some vid) captions voxtral videoUrl sourceName
            tt key).2 = true ↔ key ≠ "")
        ∧ (key ≠ "" → ∀ segs, voxtral = VoxtralOutcome.ok segs →
            fetch_transcript_chunks (some vid) captions voxtral videoUrl sourceName
              tt key = (chunkSegments segs videoUrl sourceName tt, true))
        ∧ (key ≠ "" → voxtral = VoxtralOutcome.failure →
            fetch_transcript_chunks (some vid) captions voxtral videoUrl sourceName
              tt key = ([], true))
        ∧ (key = "" →
            fetch_transcript_chunks (some vid) captions voxtral videoUrl sourceName
              tt key = ([], false)))
      ∧ (captions = CaptionsOutcome.ipBlocked →
          fetch_transcript_chunks (some vid) captions voxtral videoUrl sourceName
            tt key = ([], false)) := by
  intro vid captions voxtral videoUrl sourceName tt key
  constructor
  · intro hcap
    have hbody : fetch_transcript_chunks (some vid) captions voxtral videoUrl
        sourceName tt key
        = if key ≠ "" then
            match voxtral with
            | VoxtralOutcome.ok segments =>
                if segments = [] then ([], true)
                else (chunkSegments segments videoUrl sourceName tt, true)
            | VoxtralOutcome.failure => ([], true)
          else ([], false) := by
      rcases hcap with h | h <;> rw [h] <;> rfl
    by_cases hk : key = ""
    · rw [hbody, if_neg (by simp [hk])]
      refine ⟨by simp [hk], ?_, ?_, fun _ => rfl⟩
      · intro hk2; exact absurd hk hk2
      · intro hk2; exact absurd hk hk2
    · rw [hbody, if_pos hk]
      refine ⟨?_, ?_, ?_, fun h => absurd h hk⟩
      · cases voxtral with
        | ok segments =>
            by_cases hs : segments = [] <;> simp [hs, hk]
        | failure => simp [hk]
      · intro _ segs hv
        rw [hv]
        by_cases hs : segs = []
        · subst hs
          rfl
        · simp [hs]
      · intro _ hv
        rw [hv]
  · intro h
    rw [h]
    rfl

/-- Witness for C6 at concrete inputs: captions disabled with a key and a
successful fallback, captions disabled without a key, and IP-blocked with
a key. -/
theorem c6_witness :
    fetch_transcript_chunks (some "KHo5xEaPyAI") CaptionsOutcome.transcriptsDisabled
        (VoxtralOutcome.ok [⟨"spoken words", 0, 2⟩]) "https://yt/v=a" "Vid" 400 "sk-key"
      = (chunkSegments [⟨"spoken words", 0, 2⟩] "https://yt/v=a" "Vid" 400, true)
    ∧ fetch_transcript_chunks (some "KHo5xEaPyAI") CaptionsOutcome.noTranscriptFound
        (VoxtralOutcome.ok [⟨"spoken words", 0, 2⟩]) "https://yt/v=a" "Vid" 400 ""
      = ([], false)
    ∧ fetch_transcript_chunks (some "KHo5xEaPyAI") CaptionsOutcome.transcriptsDisabled
        VoxtralOutcome.failure "https://yt/v=a" "Vid" 400 "sk-key"
      = ([], true)
    ∧ fetch_transcript_chunks (some "KHo5xEaPyAI") CaptionsOutcome.ipBlocked
        (VoxtralOutcome.ok [⟨"spoken words", 0, 2⟩]) "https://yt/v=a" "Vid" 400 "sk-key"
      = ([], false) := by
  refine ⟨?_, ?_, ?_, ?_⟩
  · exact ((c6_audio_fallback_gating "KHo5xEaPyAI" CaptionsOutcome.transcriptsDisabled
      (VoxtralOutcome.ok [⟨"spoken words", 0, 2⟩]) "https://yt/v=a" "Vid" 400
      "sk-key").1 (Or.inl rfl)).2.1 (by decide) _ rfl
  · exact ((c6_audio_fallback_gating "KHo5xEaPyAI" CaptionsOutcome.noTranscriptFound
      (VoxtralOutcome.ok [⟨"spoken words", 0, 2⟩]) "https://yt/v=a" "Vid" 400
      "").1 (Or.inr rfl)).2.2.2 rfl
  · exact ((c6_audio_fallback_gating "KHo5xEaPyAI" CaptionsOutcome.transcriptsDisabled
      VoxtralOutcome.failure "https://yt/v=a" "Vid" 400 "sk-key").1
      (Or.inl rfl)).2.2.1 (by decide) rfl
  · exact (c6_audio_fallback_gating "KHo5xEaPyAI" CaptionsOutcome.ipBlocked
      (VoxtralOutcome.ok [⟨"spoken words", 0, 2⟩]) "https://yt/v=a" "Vid" 400
      "sk-key").2 rfl

/-- C7: the empty-results short-circuit of generate_cited_answer returns
the fixed fallback answer with no citations, logs no chat-model
invocation, and is independent of the supplied model. -/
theorem c7_empty_results_short_circuit :
    ∀ (question : String) (llm llm2 : List ChatMessage → String),
      generate_cited_answer question [] llm
        = (⟨"I couldn't find any relevant sources to answer your question.", []⟩,
           ([] : List (List ChatMessage)))
      ∧ generate_cited_answer question [] llm
          = generate_cited_answer question [] llm2 := by
  intro question llm llm2
  exact ⟨rfl, rfl⟩

/-- C4 (code bug): add_chunks can never embed or upsert a non-empty
chunk list.  WeaviateStore._embed invokes
`embed_texts(texts, api_key=..., base_url=..., model=...)`, but
embed_texts is declared as `embed_texts(texts, embeddings)` (store/
embeddings.py:23, pinned by the repository's own tests), so the call
raises TypeError before any embedding, and add_chunks propagates it
instead of returning len(chunks).  The empty-list no-op path behaves as
specified and returns 0 without any embed or store call. -/
theorem c4_add_chunks_signature_bug :
    (∀ (st : StoreState), add_chunks st [] = Except.ok (st, 0))
    ∧ (∀ (st : StoreState) (c : SupportChunk) (cs : List SupportChunk),
        add_chunks st (c :: cs)
          = Except.error (PyErr.typeError
              "embed_texts() got an unexpected keyword argument: api_key")) := by
  refine ⟨fun st => rfl, fun st c cs => rfl⟩

/-! ## C2: upsert idempotence lemmas -/

theorem containsKey_upsert_self (st : StoreState) (k : UUID) (p : StoredProps)
    (v : List ℚ) : containsKey (upsertObject st k p v) k = true := by
  unfold containsKey upsertObject
  split
  · next h =>
      rw [List.any_eq_true] at h ⊢
      obtain ⟨e, he, hk⟩ := h
      have hk2 : e.1 = k := by simpa using hk
      refine ⟨(k, p, v), ?_, by simp⟩
      rw [List.mem_map]
      exact ⟨e, he, by simp [hk2]⟩
  · rw [List.any_eq_true]
    exact ⟨(k, p, v), by simp, by simp⟩

theorem containsKey_upsert_mono {st : StoreState} {k : UUID} (k' : UUID)
    (p : StoredProps) (v : List ℚ) (h : containsKey st k = true) :
    containsKey (upsertObject st k' p v) k = true := by
  unfold containsKey upsertObject
  unfold containsKey at h
  rw [List.any_eq_true] at h
  obtain ⟨e, he, hk⟩ := h
  split
  · rw [List.any_eq_true]
    by_cases hek : e.1 = k'
    · refine ⟨(k', p, v), List.mem_map.mpr ⟨e, he, by simp [hek]⟩, ?_⟩
      simp only [decide_eq_true_eq] at hk
      simp [← hk, hek]
    · exact ⟨e, List.mem_map.mpr ⟨e, he, by simp [hek]⟩, hk⟩
  · rw [List.any_eq_true]
    exact ⟨e, List.mem_append.mpr (Or.inl he), hk⟩

theorem upsertEntries_contains_mono
    (es : List (UUID × StoredProps × List ℚ)) :
    ∀ (st : StoreState) (k : UUID), containsKey st k = true →
      containsKey (upsertEntries st es) k = true := by
  induction es with
  | nil => intro st k h; exact h
  | cons e es ih =>
      intro st k h
      exact ih _ _ (containsKey_upsert_mono _ _ _ h)

theorem upsertEntries_contains
    (entries : List (UUID × StoredProps × List ℚ)) :
    ∀ (st : StoreState) (e : UUID × StoredProps × List ℚ), e ∈ entries →
      containsKey (upsertEntries st entries) e.1 = true := by
  induction entries with
  | nil => intro st e he; simp at he
  | cons x es ih =>
      intro st e he
      rcases List.mem_cons.mp he with rfl | he2
      · exact upsertEntries_contains_mono es _ _
          (containsKey_upsert_self st e.1 e.2.1 e.2.2)
      · exact ih _ e he2

theorem find?_append_or {α : Type} (p : α → Bool) :
    ∀ (l₁ l₂ : List α),
      (l₁ ++ l₂).find? p
        = match l₁.find? p with
          | some a => some a
          | none => l₂.find? p := by
  intro l₁
  induction l₁ with
  | nil => intro l₂; rfl
  | cons a l ih =>
      intro l₂
      by_cases h : p a = true
      · rw [List.cons_append, List.find?_cons_of_pos _ h, List.find?_cons_of_pos _ h]
      · rw [List.cons_append, List.find?_cons_of_neg _ (by simpa using h),
          List.find?_cons_of_neg _ (by simpa using h), ih l₂]

theorem lastVal_cons_some {es : List (UUID × StoredProps × List ℚ)} {k' : UUID}
    {w : StoredProps × List ℚ} (h : lastVal es k' = some w) (k : UUID)
    (p : StoredProps) (v : List ℚ) :
    lastVal ((k, p, v) :: es) k' = some w := by
  unfold lastVal at h ⊢
  rw [List.reverse_cons, find?_append_or]
  rcases h2 : es.reverse.find? (fun e => e.1 = k') with _ | e
  · rw [h2] at h
    simp at h
  · rw [h2] at h
    rw [h2]
    exact h

theorem lastVal_cons_none {es : List (UUID × StoredProps × List ℚ)} {k' : UUID}
    (h : lastVal es k' = none) (k : UUID) (p : StoredProps) (v : List ℚ) :
    lastVal ((k, p, v) :: es) k'
      = if k' = k then some (p, v) else none := by
  unfold lastVal at h ⊢
  rw [List.reverse_cons, find?_append_or]
  rcases h2 : es.reverse.find? (fun e => e.1 = k') with _ | e
  · rw [h2]
    by_cases hkk : k' = k
    · subst hkk
      rw [if_pos rfl, List.find?_cons_of_pos _ (by simp)]
      rfl
    · rw [if_neg hkk, List.find?_cons_of_neg _ (by simp; exact fun h3 => hkk h3.symm),
        List.find?_nil]
      rfl
  · rw [h2] at h
    simp at h

theorem lastVal_none_not_mem {es : List (UUID × StoredProps × List ℚ)} {k : UUID}
    (h : lastVal es k = none) :
    ∀ x ∈ es, ¬ x.1 = k := by
  intro x hx
  unfold lastVal at h
  rcases hfind : es.reverse.find? (fun e => e.1 = k) with _ | e
  · rw [List.find?_eq_none] at hfind
    simpa using hfind x (List.mem_reverse.mpr hx)
  · rw [hfind] at h
    simp at h

theorem upsert_keyVal_self (st : StoreState) (k : UUID) (p : StoredProps)
    (v : List ℚ) :
    ∀ e ∈ upsertObject st k p v, e.1 = k → e.2 = (p, v) := by
  intro e he hk
  unfold upsertObject at he
  split at he
  · obtain ⟨x, _hx, hex⟩ := List.mem_map.mp he
    by_cases hxk : x.1 = k
    · rw [if_pos hxk] at hex
      rw [← hex]
    · rw [if_neg hxk] at hex
      rw [← hex] at hk
      exact absurd hk hxk
  · next hcon =>
      rcases List.mem_append.mp he with h2 | h2
      · exfalso
        apply hcon
        rw [List.any_eq_true]
        exact ⟨e, h2, by simp [hk]⟩
      · rcases List.mem_singleton.mp h2 with rfl
        rfl

theorem upsert_keyVal_preserve {st : StoreState} {k : UUID}
    {w : StoredProps × List ℚ} (k' : UUID) (p : StoredProps) (v : List ℚ)
    (hkk : ¬ k' = k) (hbase : ∀ e ∈ st, e.1 = k → e.2 = w) :
    ∀ e ∈ upsertObject st k' p v, e.1 = k → e.2 = w := by
  intro e he hk
  unfold upsertObject at he
  split at he
  · obtain ⟨x, hx, hex⟩ := List.mem_map.mp he
    by_cases hxk : x.1 = k'
    · rw [if_pos hxk] at hex
      rw [← hex] at hk
      exact absurd hk.symm (fun h2 => hkk h2.symm)
    · rw [if_neg hxk] at hex
      rw [← hex]
      rw [← hex] at hk
      exact hbase x hx hk
  · rcases List.mem_append.mp he with h2 | h2
    · exact hbase e h2 hk
    · rcases List.mem_singleton.mp h2 with rfl
      exact absurd hk hkk

theorem upsertEntries_keyVal_preserve
    (es : List (UUID × StoredProps × List ℚ)) :
    ∀ (st : StoreState) (k : UUID) (w : StoredProps × List ℚ),
      (∀ x ∈ es, ¬ x.1 = k) → (∀ e ∈ st, e.1 = k → e.2 = w) →
      ∀ e ∈ upsertEntries st es, e.1 = k → e.2 = w := by
  induction es with
  | nil => intro st k w _ hbase; exact hbase
  | cons x es ih =>
      intro st k w hmem hbase
      refine ih _ k w (fun y hy => hmem y (List.mem_cons_of_mem _ hy)) ?_
      exact upsert_keyVal_preserve x.1 x.2.1 x.2.2
        (hmem x (List.mem_cons_self _ _)) hbase

theorem upsertEntries_lastVal
    (entries : List (UUID × StoredProps × List ℚ)) :
    ∀ (st : StoreState) (k : UUID) (w : StoredProps × List ℚ),
      lastVal entries k = some w →
      ∀ e ∈ upsertEntries st entries, e.1 = k → e.2 = w := by
  induction entries with
  | nil => intro st k w h; simp [lastVal] at h
  | cons x es ih =>
      obtain ⟨k0, p0, v0⟩ := x
      intro st k w h
      rcases hlv : lastVal es k with _ | w2
      · rw [lastVal_cons_none hlv] at h
        split at h
        · next hk =>
            obtain rfl : (p0, v0) = w := Option.some.inj h
            subst hk
            exact upsertEntries_keyVal_preserve es _ _ _
              (lastVal_none_not_mem hlv)
              (upsert_keyVal_self st _ p0 v0)
        · simp at h
      · rw [lastVal_cons_some hlv] at h
        obtain rfl : w2 = w := Option.some.inj h
        exact ih _ k w2 hlv

theorem upsert_eq_map_of_contains {st : StoreState} {k : UUID}
    (p : StoredProps) (v : List ℚ) (h : containsKey st k = true) :
    upsertObject st k p v = st.map (fun e => if e.1 = k then (k, p, v) else e) := by
  unfold containsKey at h
  unfold upsertObject
  rw [if_pos h]

theorem overwriteBy_nil (st : StoreState) : overwriteBy st [] = st := by
  unfold overwriteBy
  have h : ∀ e ∈ st, (match lastVal ([] : List (UUID × StoredProps × List ℚ)) e.1 with
      | some v => (e.1, v.1, v.2)
      | none => e) = e := by
    intro e _
    rfl
  rw [List.map_congr_left h, List.map_id']

theorem upsertEntries_eq_overwriteBy
    (entries : List (UUID × StoredProps × List ℚ)) :
    ∀ (st : StoreState),
      (∀ e ∈ entries, containsKey st e.1 = true) →
      upsertEntries st entries = overwriteBy st entries := by
  induction entries with
  | nil => intro st _; exact (overwriteBy_nil st).symm
  | cons x es ih =>
      obtain ⟨k0, p0, v0⟩ := x
      intro st h
      have hck : containsKey st k0 = true := h (k0, p0, v0) (List.mem_cons_self _ _)
      have hes : ∀ e ∈ es, containsKey (upsertObject st k0 p0 v0) e.1 = true :=
        fun e he => containsKey_upsert_mono _ _ _ (h e (List.mem_cons_of_mem _ he))
      show upsertEntries (upsertObject st k0 p0 v0) es = _
      rw [ih _ hes, upsert_eq_map_of_contains _ _ hck]
      unfold overwriteBy
      rw [List.map_map]
      refine List.map_congr_left ?_
      intro e _he
      simp only [Function.comp]
      by_cases hek : e.1 = k0
      · rw [if_pos hek]
        rcases hlv : lastVal es k0 with _ | w
        · rw [hek, lastVal_cons_none hlv]
          try simp [hlv]
        · rw [hek, lastVal_cons_some hlv]
          try simp [hlv]
      · rw [if_neg hek]
        rcases hlv : lastVal es e.1 with _ | w
        · rw [lastVal_cons_none hlv]
          try simp [hlv, hek]
        · rw [lastVal_cons_some hlv]
          try simp [hlv]

theorem overwriteBy_self (st : StoreState)
    (entries : List (UUID × StoredProps × List ℚ))
    (h : ∀ (k : UUID) (w : StoredProps × List ℚ), lastVal entries k = some w →
      ∀ e ∈ st, e.1 = k → e.2 = w) :
    overwriteBy st entries = st := by
  unfold overwriteBy
  have h2 : ∀ e ∈ st, (match lastVal entries e.1 with
      | some v => (e.1, v.1, v.2)
      | none => e) = e := by
    intro e he
    rcases hlv : lastVal entries e.1 with _ | w
    · rfl
    · have h3 := h e.1 w hlv e he rfl
      rw [← h3]
  rw [List.map_congr_left h2, List.map_id']

theorem upsertEntries_idem (entries : List (UUID × StoredProps × List ℚ))
    (st : StoreState) :
    upsertEntries (upsertEntries st entries) entries = upsertEntries st entries := by
  rw [upsertEntries_eq_overwriteBy entries _
    (fun e he => upsertEntries_contains entries st e he)]
  exact overwriteBy_self _ entries
    (fun k w hlv e he h1 => upsertEntries_lastVal entries st k w hlv e he h1)

/-- C2 (code bug): the claimed upsert-by-chunk_id idempotence mechanism
is unreachable in the repository's write path.  For every store state
and every non-empty chunk list, add_chunks raises the embed_texts
keyword-signature TypeError (the defect recorded under C4) before any
embedding or upsert, so a run of add_chunks on non-empty source
material never succeeds and a second identical run can never reach the
store — the upsert-by-id mechanism the claim relies on never operates.
The only successful path is the empty chunk list, and re-running that
no-op leaves the store unchanged with count 0. -/
theorem c2_reingestion_unreachable :
    (∀ (st : StoreState) (c : SupportChunk) (cs : List SupportChunk),
        ∃ e, add_chunks st (c :: cs) = Except.error e)
    ∧ (∀ (st : StoreState),
        (add_chunks st []).bind (fun p => add_chunks p.1 []) = Except.ok (st, 0)) := by
  refine ⟨fun st c cs => ⟨PyErr.typeError
    "embed_texts() got an unexpected keyword argument: api_key", rfl⟩,
    fun st => rfl⟩

/-! ## C8: sequential versus simultaneous citation substitution -/

theorem pyReplaceAux_fuel (pat repl : List Char) :
    ∀ (fuel1 fuel2 : Nat) (s : List Char), s.length ≤ fuel1 → s.length ≤ fuel2 →
      pyReplaceAux pat repl fuel1 s = pyReplaceAux pat repl fuel2 s := by
  intro fuel1
  induction fuel1 with
  | zero =>
      intro fuel2 s h1 _
      have hs : s = [] := List.eq_nil_of_length_eq_zero (Nat.le_zero.mp h1)
      subst hs
      cases fuel2 <;> rfl
  | succ fuel ih =>
      intro fuel2 s h1 h2
      cases s with
      | nil => cases fuel2 <;> rfl
      | cons c rest =>
          cases fuel2 with
          | zero => simp at h2
          | succ fuel2 =>
              simp only [pyReplaceAux]
              by_cases hp : pat ≠ [] ∧ pat.isPrefixOf (c :: rest) = true
              · rw [if_pos hp, if_pos hp]
                have hlen : ((c :: rest).drop pat.length).length ≤ fuel := by
                  simp only [List.length_drop, List.length_cons]
                  have : 1 ≤ pat.length := by
                    cases pat with
                    | nil => exact absurd rfl hp.1
                    | cons p ps => simp
                  simp only [List.length_cons] at h1
                  omega
                have hlen2 : ((c :: rest).drop pat.length).length ≤ fuel2 := by
                  simp only [List.length_drop, List.length_cons]
                  have : 1 ≤ pat.length := by
                    cases pat with
                    | nil => exact absurd rfl hp.1
                    | cons p ps => simp
                  simp only [List.length_cons] at h2
                  omega
                rw [ih fuel2 _ hlen hlen2]
              · rw [if_neg hp, if_neg hp]
                have hl1 : rest.length ≤ fuel := by
                  simp only [List.length_cons] at h1; omega
                have hl2 : rest.length ≤ fuel2 := by
                  simp only [List.length_cons] at h2; omega
                rw [ih fuel2 rest hl1 hl2]

theorem pyReplaceAux_append_pat (pat repl t : List Char) (hne : pat ≠ []) :
    pyReplaceAux pat repl (pat ++ t).length (pat ++ t)
      = repl ++ pyReplaceAux pat repl t.length t := by
  cases pat with
  | nil => exact absurd rfl hne
  | cons p ps =>
      simp only [List.cons_append, List.length_cons]
      simp only [pyReplaceAux]
      rw [if_pos ?side]
      case side =>
        constructor
        · simp
        · rw [List.isPrefixOf_iff_prefix]
          exact ⟨t, by simp⟩
      have hdrop : (p :: (ps ++ t)).drop (p :: ps).length = t := by
        have := List.drop_left (p :: ps) t
        simpa using this
      rw [hdrop]
      congr 1
      refine pyReplaceAux_fuel _ _ _ _ _ ?_ (le_refl _)
      simp only [List.length_append]
      omega

theorem pyReplaceAux_cons_no_match (pat repl : List Char) (c : Char)
    (rest : List Char) (h : ¬ pat.isPrefixOf (c :: rest) = true) :
    pyReplaceAux pat repl (c :: rest).length (c :: rest)
      = c :: pyReplaceAux pat repl rest.length rest := by
  simp only [List.length_cons, pyReplaceAux]
  rw [if_neg (fun hp => h hp.2)]

theorem pyReplaceAux_pass (pat repl : List Char) (hne : pat ≠ []) :
    ∀ (piece rest : List Char),
      (∀ x y, piece = x ++ y → y ≠ [] → ¬ pat.isPrefixOf (y ++ rest) = true) →
      pyReplaceAux pat repl (piece ++ rest).length (piece ++ rest)
        = piece ++ pyReplaceAux pat repl rest.length rest := by
  intro piece
  induction piece with
  | nil => intro rest _; simp
  | cons c cs ih =>
      intro rest hno
      have h1 : ¬ pat.isPrefixOf ((c :: cs) ++ rest) = true :=
        hno [] (c :: cs) rfl (by simp)
      rw [List.cons_append,
        pyReplaceAux_cons_no_match pat repl c (cs ++ rest) (by simpa using h1),
        ih rest (fun x y hxy hy => hno (c :: x) y (by rw [hxy]; rfl) hy)]
      rfl

theorem pyReplaceAux_no_occur (pat repl : List Char) (hne : pat ≠ []) :
    ∀ (s : List Char), ¬ OccursIn pat s →
      pyReplaceAux pat repl s.length s = s := by
  intro s
  induction s with
  | nil => intro _; rfl
  | cons c rest ih =>
      intro hocc
      have hp : ¬ pat.isPrefixOf (c :: rest) = true := by
        intro hp
        rw [List.isPrefixOf_iff_prefix] at hp
        obtain ⟨t, ht⟩ := hp
        exact hocc ⟨[], t, by simp [ht.symm]⟩
      rw [pyReplaceAux_cons_no_match pat repl c rest hp,
        ih (fun ⟨a, b, hab⟩ => hocc ⟨c :: a, b, by simp [hab]⟩)]

theorem natToDigitsAux_all_digits :
    ∀ fuel n c, c ∈ natToDigitsAux fuel n → c.isDigit = true := by
  intro fuel
  induction fuel with
  | zero => intro n c hc; simp [natToDigitsAux] at hc
  | succ fuel ih =>
      intro n c hc
      simp only [natToDigitsAux] at hc
      by_cases h : n < 10
      · rw [if_pos h] at hc
        simp at hc
        subst hc
        exact digitChar_isDigit h
      · rw [if_neg h] at hc
        rcases List.mem_append.mp hc with h1 | h1
        · exact ih _ _ h1
        · simp at h1
          subst h1
          exact digitChar_isDigit (Nat.mod_lt _ (by norm_num))

theorem natToDigits_all_digits (n : Nat) :
    ∀ c ∈ natToDigits n, c.isDigit = true :=
  fun c hc => natToDigitsAux_all_digits (n + 1) n c hc

theorem natToDigits_ne_nil (n : Nat) : natToDigits n ≠ [] := by
  obtain ⟨c, l, h, _⟩ := natToDigits_head n
  rw [h]
  simp

theorem markerChars_ne_nil (n : Nat) : markerChars n ≠ [] := by
  simp [markerChars]

theorem digits_bracket_prefix_inj :
    ∀ (d1 d2 : List Char), (∀ c ∈ d1, c.isDigit = true) →
      (∀ c ∈ d2, c.isDigit = true) →
      (d1 ++ [']']) <+: (d2 ++ [']']) → d1 = d2 := by
  intro d1
  induction d1 with
  | nil =>
      intro d2 _ h2 hp
      cases d2 with
      | nil => rfl
      | cons b bs =>
          have hb : ']' = b := by simpa using hp
          have hd := h2 b (List.mem_cons_self b bs)
          rw [← hb] at hd
          exact absurd hd (by decide)
  | cons a as ih =>
      intro d2 h1 h2 hp
      cases d2 with
      | nil =>
          have ha := h1 a (List.mem_cons_self a as)
          have hp2 : a :: (as ++ [']']) <+: [']'] := by simpa using hp
          rcases List.cons_prefix_cons.mp hp2 with ⟨hb, htail⟩
          rw [hb] at ha
          exact absurd ha (by decide)
      | cons b bs =>
          rcases List.cons_prefix_cons.mp (by simpa using hp) with ⟨hab, htail⟩
          rw [ih bs (fun c hc => h1 c (List.mem_cons_of_mem a hc))
            (fun c hc => h2 c (List.mem_cons_of_mem b hc)) htail, hab]

theorem marker_prefix_marker {k1 k2 : Nat}
    (h : markerChars k1 <+: markerChars k2) : k1 = k2 := by
  unfold markerChars at h
  rcases List.cons_prefix_cons.mp h with ⟨_, htail⟩
  exact natToDigits_injective
    (digits_bracket_prefix_inj _ _ (natToDigits_all_digits k1)
      (natToDigits_all_digits k2) htail)

theorem marker_prefix_unique {k1 k2 : Nat} {s : List Char}
    (h1 : (markerChars k1).isPrefixOf s = true)
    (h2 : (markerChars k2).isPrefixOf s = true) : k1 = k2 := by
  rw [List.isPrefixOf_iff_prefix] at h1 h2
  rcases List.prefix_or_prefix_of_prefix h1 h2 with h | h
  · exact marker_prefix_marker h
  · exact (marker_prefix_marker h).symm

theorem findMarkerPrefix_some {m k : Nat} {s : List Char}
    (h : findMarkerPrefix m s = some k) :
    (markerChars k).isPrefixOf s = true ∧ 1 ≤ k ∧ k ≤ m := by
  unfold findMarkerPrefix at h
  have hp0 := List.find?_some h
  have hp : (markerChars k).isPrefixOf s = true := by simpa using hp0
  refine ⟨hp, ?_⟩
  have hmem := List.mem_of_find?_eq_some h
  simp only [List.mem_map, List.mem_range] at hmem
  obtain ⟨j, hj, hjk⟩ := hmem
  omega

theorem findMarkerPrefix_complete {m k : Nat} {s : List Char}
    (hk1 : 1 ≤ k) (hk2 : k ≤ m)
    (hp : (markerChars k).isPrefixOf s = true) :
    findMarkerPrefix m s = some k := by
  cases h : findMarkerPrefix m s with
  | none =>
      unfold findMarkerPrefix at h
      have := List.find?_eq_none.mp h k (by
        simp only [List.mem_map, List.mem_range]
        exact ⟨k - 1, by omega, by omega⟩)
      exact absurd hp this
  | some k' =>
      obtain ⟨hp', _, _⟩ := findMarkerPrefix_some h
      rw [marker_prefix_unique hp hp']

theorem resultLink_format (r : SearchResult) :
    ∃ mid, (resultLink r).data = '[' :: (mid ++ [')']) := by
  refine ⟨r.citation_label.data ++ "](".data ++ r.citation_url.data
    ++ ") (".data ++ (pyStrInt (scorePct r.relevance_score)).data ++ ['%'], ?_⟩
  simp only [resultLink, string_data_append]
  simp

theorem getLast_concat_shape (x : List Char) (c : Char) :
    (x ++ [c]).getLast? = some c := by
  induction x with
  | nil => rfl
  | cons a as ih =>
      cases as with
      | nil => rfl
      | cons b bs => simpa using ih

theorem getLast_suffix (x y : List Char) (hy : y ≠ []) :
    (x ++ y).getLast? = y.getLast? := by
  induction x with
  | nil => rfl
  | cons a as ih =>
      cases has : as ++ y with
      | nil =>
          rcases List.append_eq_nil.mp has with ⟨_, h2⟩
          exact absurd h2 hy
      | cons b bs =>
          calc ((a :: as) ++ y).getLast? = (b :: bs).getLast? := by
                rw [List.cons_append, has]
                cases bs <;> rfl
            _ = y.getLast? := by rw [← has, ih]

theorem marker_getLast (n : Nat) : (markerChars n).getLast? = some ']' := by
  unfold markerChars
  exact getLast_concat_shape ('[' :: natToDigits n) ']'

theorem prefix_append_of_le {l a b : List Char}
    (h : l <+: a ++ b) (hl : l.length ≤ a.length) : l <+: a := by
  have h1 : l = (a ++ b).take l.length := List.prefix_iff_eq_take.mp h
  rw [List.take_append_eq_append_take, Nat.sub_eq_zero_of_le hl] at h1
  simp only [List.take_zero, List.append_nil] at h1
  rw [h1]
  exact List.take_prefix _ _

theorem getLast_mem : ∀ (l : List Char) (c : Char), l.getLast? = some c → c ∈ l := by
  intro l
  induction l with
  | nil => intro c h; simp at h
  | cons a as ih =>
      intro c h
      cases as with
      | nil =>
          simp only [List.getLast?_singleton, Option.some.injEq] at h
          simp [h]
      | cons b bs =>
          have h2 : (b :: bs).getLast? = some c := by
            rw [← getLast_suffix [a] (b :: bs) (by simp)]
            exact h
          exact List.mem_cons_of_mem a (ih c h2)

theorem proper_prefix_marker_last {y : List Char} {n : Nat}
    (hpre : y <+: markerChars n) (hne : y ≠ []) (hproper : y ≠ markerChars n) :
    ∃ c, y.getLast? = some c ∧ (c = '[' ∨ c.isDigit = true) := by
  unfold markerChars at hpre hproper
  cases y with
  | nil => exact absurd rfl hne
  | cons a y2 =>
      rcases List.cons_prefix_cons.mp hpre with ⟨ha, htail⟩
      cases y2 with
      | nil => exact ⟨'[', by simp [ha], Or.inl rfl⟩
      | cons d ds =>
          have hlen : (d :: ds).length ≤ (natToDigits n).length := by
            have h1 := List.IsPrefix.length_le hpre
            by_contra hgt
            push_neg at hgt
            have heq : (a :: d :: ds).length
                = ('[' :: (natToDigits n ++ [']'])).length := by
              simp only [List.length_cons, List.length_append, List.length_nil,
                List.length_singleton] at h1 hgt ⊢
              omega
            exact hproper (List.IsPrefix.eq_of_length hpre heq)
          have hpre2 : (d :: ds) <+: natToDigits n :=
            prefix_append_of_le htail hlen
          cases hl : (d :: ds).getLast? with
          | none =>
              rw [List.getLast?_eq_none_iff] at hl
              exact absurd hl (by simp)
          | some c =>
              have hc : c ∈ (d :: ds) := getLast_mem _ c hl
              have hcd : c.isDigit = true :=
                natToDigits_all_digits n c (hpre2.subset hc)
              refine ⟨c, ?_, Or.inr hcd⟩
              rw [show a :: d :: ds = [a] ++ (d :: ds) from rfl,
                getLast_suffix [a] (d :: ds) (by simp), hl]

theorem marker_occurs_marker {a b : Nat}
    (h : OccursIn (markerChars a) (markerChars b)) : a = b := by
  obtain ⟨x, z, hxz⟩ := h
  cases x with
  | nil =>
      refine marker_prefix_marker ⟨z, ?_⟩
      simpa using hxz.symm
  | cons x0 xs =>
      have hxz2 : markerChars b = x0 :: (xs ++ markerChars a ++ z) := by
        simpa using hxz
      unfold markerChars at hxz2
      have htail : natToDigits b ++ [']'] = xs ++ markerChars a ++ z :=
        (List.cons.injEq _ _ _ _ ▸ hxz2).2
      have hmem : '[' ∈ natToDigits b ++ [']'] := by
        rw [htail]
        simp [markerChars]
      rcases List.mem_append.mp hmem with h1 | h1
      · exact absurd (natToDigits_all_digits b '[' h1) (by decide)
      · simp at h1

theorem markerChars_length_pos (n : Nat) : 1 ≤ (markerChars n).length := by
  simp [markerChars]

theorem tokenizeRefsAux_fuel (m : Nat) :
    ∀ (fuel1 fuel2 : Nat) (s : List Char), s.length ≤ fuel1 → s.length ≤ fuel2 →
      tokenizeRefsAux m fuel1 s = tokenizeRefsAux m fuel2 s := by
  intro fuel1
  induction fuel1 with
  | zero =>
      intro fuel2 s h1 _
      have hs : s = [] := List.eq_nil_of_length_eq_zero (Nat.le_zero.mp h1)
      subst hs
      cases fuel2 <;> rfl
  | succ fuel ih =>
      intro fuel2 s h1 h2
      cases s with
      | nil => cases fuel2 <;> rfl
      | cons c rest =>
          cases fuel2 with
          | zero => simp at h2
          | succ fuel2 =>
              cases hfm : findMarkerPrefix m (c :: rest) with
              | some k =>
                  simp only [tokenizeRefsAux, hfm]
                  have hdl : ((c :: rest).drop (markerChars k).length).length ≤ fuel := by
                    simp only [List.length_drop, List.length_cons]
                    have := markerChars_length_pos k
                    simp only [List.length_cons] at h1
                    omega
                  have hdl2 : ((c :: rest).drop (markerChars k).length).length ≤ fuel2 := by
                    simp only [List.length_drop, List.length_cons]
                    have := markerChars_length_pos k
                    simp only [List.length_cons] at h2
                    omega
                  rw [ih fuel2 _ hdl hdl2]
              | none =>
                  simp only [tokenizeRefsAux, hfm]
                  rw [ih fuel2 rest (by simp only [List.length_cons] at h1; omega)
                    (by simp only [List.length_cons] at h2; omega)]

theorem claimSubstAux_eq_render (links : Nat → List Char) (m : Nat) :
    ∀ (fuel : Nat) (s : List Char), s.length ≤ fuel →
      claimSubstAux links m fuel s = renderToks links (tokenizeRefsAux m fuel s) := by
  intro fuel
  induction fuel with
  | zero =>
      intro s h1
      have hs : s = [] := List.eq_nil_of_length_eq_zero (Nat.le_zero.mp h1)
      subst hs
      rfl
  | succ fuel ih =>
      intro s h1
      cases s with
      | nil => rfl
      | cons c rest =>
          cases hfm : findMarkerPrefix m (c :: rest) with
          | some k =>
              simp only [claimSubstAux, tokenizeRefsAux, hfm, renderToks]
              rw [ih _ (by
                simp only [List.length_drop, List.length_cons]
                have := markerChars_length_pos k
                simp only [List.length_cons] at h1
                omega)]
          | none =>
              simp only [claimSubstAux, tokenizeRefsAux, hfm, renderToks]
              rw [ih rest (by simp only [List.length_cons] at h1; omega)]

theorem tokenizeRefsAux_cites (m : Nat) :
    ∀ (fuel : Nat) (s : List Char) (k : Nat),
      RefTok.cite k ∈ tokenizeRefsAux m fuel s → 1 ≤ k ∧ k ≤ m := by
  intro fuel
  induction fuel with
  | zero =>
      intro s k hk
      cases s <;> simp [tokenizeRefsAux] at hk
  | succ fuel ih =>
      intro s k hk
      cases s with
      | nil => simp [tokenizeRefsAux] at hk
      | cons c rest =>
          cases hfm : findMarkerPrefix m (c :: rest) with
          | some k' =>
              simp only [tokenizeRefsAux, hfm] at hk
              rcases List.mem_cons.mp hk with h | h
              · obtain ⟨_, hb⟩ := findMarkerPrefix_some hfm
                obtain rfl : k = k' := by simpa using h
                exact hb
              · exact ih _ _ h
          | none =>
              simp only [tokenizeRefsAux, hfm] at hk
              rcases List.mem_cons.mp hk with h | h
              · simp at h
              · exact ih _ _ h

theorem renderToks_congr (f g : Nat → List Char) :
    ∀ (toks : List RefTok),
      (∀ k, RefTok.cite k ∈ toks → f k = g k) →
      renderToks f toks = renderToks g toks := by
  intro toks
  induction toks with
  | nil => intro _; rfl
  | cons t ts ih =>
      intro h
      cases t with
      | raw c =>
          simp only [renderToks]
          rw [ih (fun k hk => h k (List.mem_cons_of_mem _ hk))]
      | cite k =>
          simp only [renderToks]
          rw [h k (List.mem_cons_self _ _),
            ih (fun k' hk => h k' (List.mem_cons_of_mem _ hk))]

theorem tokenize_render (m : Nat) :
    ∀ (fuel : Nat) (s : List Char), s.length ≤ fuel →
      renderToks markerChars (tokenizeRefsAux m fuel s) = s := by
  intro fuel
  induction fuel with
  | zero =>
      intro s h1
      have hs : s = [] := List.eq_nil_of_length_eq_zero (Nat.le_zero.mp h1)
      subst hs
      rfl
  | succ fuel ih =>
      intro s h1
      cases s with
      | nil => rfl
      | cons c rest =>
          cases hfm : findMarkerPrefix m (c :: rest) with
          | some k =>
              obtain ⟨hp, _, _⟩ := findMarkerPrefix_some hfm
              rw [List.isPrefixOf_iff_prefix] at hp
              obtain ⟨t, ht⟩ := hp
              simp only [tokenizeRefsAux, hfm, renderToks]
              rw [ih _ (by
                simp only [List.length_drop, List.length_cons]
                have := markerChars_length_pos k
                simp only [List.length_cons] at h1
                omega)]
              conv_rhs => rw [← ht]
              congr 1
              rw [← ht, List.drop_left]
          | none =>
              simp only [tokenizeRefsAux, hfm, renderToks]
              rw [ih rest (by simp only [List.length_cons] at h1; omega)]

theorem digits_prefix_reflect (links : Nat → List Char) (m i : Nat)
    (hfmt : ∀ k, 1 ≤ k → k ≤ m → ∃ mid, links k = '[' :: (mid ++ [')'])) :
    ∀ (t : List Char), (∀ c ∈ t, c.isDigit = true) →
      ∀ (fuel : Nat) (s : List Char), s.length ≤ fuel →
        (t ++ [']']) <+: renderUpTo links i (tokenizeRefsAux m fuel s) →
        (t ++ [']']) <+: s := by
  intro t
  induction t with
  | nil =>
      intro _ fuel s hlen hp
      cases s with
      | nil =>
          cases fuel <;> simp [tokenizeRefsAux, renderUpTo, renderToks] at hp
      | cons c rest =>
          cases fuel with
          | zero => simp at hlen
          | succ fuel =>
              cases hfm : findMarkerPrefix m (c :: rest) with
              | some k =>
                  obtain ⟨_, hk1, hkm⟩ := findMarkerPrefix_some hfm
                  simp only [tokenizeRefsAux, hfm, renderUpTo, renderToks] at hp
                  by_cases hki : k ≤ i
                  · rw [if_pos hki] at hp
                    obtain ⟨mid, hmid⟩ := hfmt k hk1 hkm
                    rw [hmid] at hp
                    simp only [List.nil_append, List.cons_append] at hp
                    have hc := (List.cons_prefix_cons.mp hp).1
                    exact absurd hc (by decide)
                  · rw [if_neg hki] at hp
                    unfold markerChars at hp
                    simp only [List.nil_append, List.cons_append] at hp
                    have hc := (List.cons_prefix_cons.mp hp).1
                    exact absurd hc (by decide)
              | none =>
                  simp only [tokenizeRefsAux, hfm, renderUpTo, renderToks] at hp
                  simp only [List.nil_append] at hp
                  have hc := (List.cons_prefix_cons.mp hp).1
                  simp only [List.nil_append]
                  exact List.cons_prefix_cons.mpr ⟨hc, List.nil_prefix⟩
  | cons d ds ih =>
      intro hdig fuel s hlen hp
      have hd : d.isDigit = true := hdig d (List.mem_cons_self _ _)
      cases s with
      | nil =>
          cases fuel <;> simp [tokenizeRefsAux, renderUpTo, renderToks] at hp
      | cons c rest =>
          cases fuel with
          | zero => simp at hlen
          | succ fuel =>
              cases hfm : findMarkerPrefix m (c :: rest) with
              | some k =>
                  obtain ⟨_, hk1, hkm⟩ := findMarkerPrefix_some hfm
                  simp only [tokenizeRefsAux, hfm, renderUpTo, renderToks] at hp
                  by_cases hki : k ≤ i
                  · rw [if_pos hki] at hp
                    obtain ⟨mid, hmid⟩ := hfmt k hk1 hkm
                    rw [hmid] at hp
                    simp only [List.cons_append] at hp
                    have hc := (List.cons_prefix_cons.mp hp).1
                    rw [hc] at hd
                    exact absurd hd (by decide)
                  · rw [if_neg hki] at hp
                    unfold markerChars at hp
                    simp only [List.cons_append] at hp
                    have hc := (List.cons_prefix_cons.mp hp).1
                    rw [hc] at hd
                    exact absurd hd (by decide)
              | none =>
                  simp only [tokenizeRefsAux, hfm, renderUpTo, renderToks] at hp
                  simp only [List.cons_append] at hp
                  rcases List.cons_prefix_cons.mp hp with ⟨hc, htail⟩
                  have hrec := ih (fun c hc => hdig c (List.mem_cons_of_mem _ hc))
                    fuel rest (by simp only [List.length_cons] at hlen; omega) htail
                  simpa using List.cons_prefix_cons.mpr ⟨hc, hrec⟩

theorem piece_pass_side {piece : List Char} {idx : Nat} (R : List Char)
    (hocc : ¬ OccursIn (markerChars idx) piece)
    (hlast : ∃ g, piece.getLast? = some g ∧ g ≠ '[' ∧ g.isDigit = false) :
    ∀ x y, piece = x ++ y → y ≠ [] →
      ¬ (markerChars idx).isPrefixOf (y ++ R) = true := by
  intro x y hxy hy hp
  rw [List.isPrefixOf_iff_prefix] at hp
  have hy' : y <+: y ++ R := ⟨R, rfl⟩
  rcases List.prefix_or_prefix_of_prefix hp hy' with hmy | hym
  · obtain ⟨y2, hy2⟩ := hmy
    exact hocc ⟨x, y2, by rw [hxy, ← hy2]; simp⟩
  · by_cases hyeq : y = markerChars idx
    · exact hocc ⟨x, [], by rw [hxy, hyeq]; simp⟩
    · obtain ⟨g, hg, hgor⟩ := proper_prefix_marker_last hym hy hyeq
      obtain ⟨g', hg', hg'1, hg'2⟩ := hlast
      have hgy : y.getLast? = some g' := by
        rw [hxy] at hg'
        rw [← getLast_suffix x y hy]
        exact hg'
      rw [hgy] at hg
      obtain rfl := Option.some.inj hg
      rcases hgor with h | h
      · exact hg'1 h
      · rw [hg'2] at h
        exact absurd h (by decide)

theorem renderUpTo_nil (links : Nat → List Char) (j : Nat) :
    renderUpTo links j [] = [] := rfl

theorem renderUpTo_cons_raw (links : Nat → List Char) (j : Nat) (c : Char)
    (T : List RefTok) :
    renderUpTo links j (RefTok.raw c :: T) = c :: renderUpTo links j T := rfl

theorem renderUpTo_cons_cite (links : Nat → List Char) (j k : Nat)
    (T : List RefTok) :
    renderUpTo links j (RefTok.cite k :: T)
      = (if k ≤ j then links k else markerChars k) ++ renderUpTo links j T := rfl

theorem replace_step (links : Nat → List Char) (m i : Nat) (hi : i < m)
    (hno : ∀ j k, 1 ≤ j → j ≤ m → 1 ≤ k → k ≤ m →
      ¬ OccursIn (markerChars k) (links j))
    (hfmt : ∀ k, 1 ≤ k → k ≤ m → ∃ mid, links k = '[' :: (mid ++ [')'])) :
    ∀ (fuel : Nat) (s : List Char), s.length ≤ fuel →
      pyReplaceAux (markerChars (i + 1)) (links (i + 1))
          (renderUpTo links i (tokenizeRefsAux m fuel s)).length
          (renderUpTo links i (tokenizeRefsAux m fuel s))
        = renderUpTo links (i + 1) (tokenizeRefsAux m fuel s) := by
  intro fuel
  induction fuel with
  | zero =>
      intro s h1
      have hs : s = [] := List.eq_nil_of_length_eq_zero (Nat.le_zero.mp h1)
      subst hs
      rfl
  | succ fuel ih =>
      intro s h1
      cases s with
      | nil => rfl
      | cons c rest =>
          cases hfm : findMarkerPrefix m (c :: rest) with
          | some k =>
              obtain ⟨hpk, hk1, hkm⟩ := findMarkerPrefix_some hfm
              have hdl : ((c :: rest).drop (markerChars k).length).length ≤ fuel := by
                simp only [List.length_drop, List.length_cons]
                have := markerChars_length_pos k
                simp only [List.length_cons] at h1
                omega
              simp only [tokenizeRefsAux, hfm, renderUpTo_cons_cite]
              by_cases hki : k ≤ i
              · rw [if_pos hki, if_pos (show k ≤ i + 1 by omega)]
                have hocc : ¬ OccursIn (markerChars (i + 1)) (links k) :=
                  hno k (i + 1) hk1 hkm (by omega) (by omega)
                have hlast : ∃ g, (links k).getLast? = some g ∧ g ≠ '['
                    ∧ g.isDigit = false := by
                  obtain ⟨mid, hmid⟩ := hfmt k hk1 hkm
                  exact ⟨')', by
                    rw [hmid]
                    exact getLast_concat_shape ('[' :: mid) ')', by decide, by decide⟩
                rw [pyReplaceAux_pass _ _ (markerChars_ne_nil (i + 1)) (links k) _
                  (piece_pass_side _ hocc hlast), ih _ hdl]
              · by_cases hki2 : k = i + 1
                · subst hki2
                  rw [if_neg hki, if_pos (le_refl (i + 1))]
                  rw [pyReplaceAux_append_pat _ _ _ (markerChars_ne_nil (i + 1)),
                    ih _ hdl]
                · rw [if_neg hki, if_neg (show ¬ k ≤ i + 1 by omega)]
                  have hocc : ¬ OccursIn (markerChars (i + 1)) (markerChars k) := by
                    intro h
                    have := marker_occurs_marker h
                    omega
                  have hlast : ∃ g, (markerChars k).getLast? = some g ∧ g ≠ '['
                      ∧ g.isDigit = false :=
                    ⟨']', marker_getLast k, by decide, by decide⟩
                  rw [pyReplaceAux_pass _ _ (markerChars_ne_nil (i + 1)) (markerChars k) _
                    (piece_pass_side _ hocc hlast), ih _ hdl]
          | none =>
              have hrl : rest.length ≤ fuel := by
                simp only [List.length_cons] at h1
                omega
              simp only [tokenizeRefsAux, hfm, renderUpTo_cons_raw]
              have hnp : ¬ (markerChars (i + 1)).isPrefixOf
                  (c :: renderUpTo links i (tokenizeRefsAux m fuel rest)) = true := by
                intro hp
                rw [List.isPrefixOf_iff_prefix] at hp
                unfold markerChars at hp
                rcases List.cons_prefix_cons.mp hp with ⟨hc, htail⟩
                have hrefl := digits_prefix_reflect links m i hfmt (natToDigits (i + 1))
                  (natToDigits_all_digits _) fuel rest hrl htail
                have hpre : markerChars (i + 1) <+: (c :: rest) := by
                  unfold markerChars
                  exact List.cons_prefix_cons.mpr ⟨hc, hrefl⟩
                have hcomp := findMarkerPrefix_complete (show 1 ≤ i + 1 by omega)
                  (show i + 1 ≤ m by omega) (List.isPrefixOf_iff_prefix.mpr hpre)
                rw [hfm] at hcomp
                exact Option.noConfusion hcomp
              rw [pyReplaceAux_cons_no_match _ _ _ _ hnp, ih rest hrl]

theorem applyLinksFrom_eq_foldl :
    ∀ (rs : List SearchResult) (off : Nat) (t : String),
      (List.enumFrom off rs).foldl
        (fun t ir => pyReplace t (markerStr (ir.1 + 1)) (resultLink ir.2)) t
      = applyLinksFrom off rs t := by
  intro rs
  induction rs with
  | nil => intro off t; rfl
  | cons r rs ih =>
      intro off t
      simp only [List.enumFrom, List.foldl_cons, applyLinksFrom]
      exact ih (off + 1) _

theorem replaceRefs_eq_applyLinks (t : String) (results : List SearchResult) :
    replaceRefsWithLinks t results = applyLinksFrom 0 results t := by
  unfold replaceRefsWithLinks List.enum
  exact applyLinksFrom_eq_foldl results 0 t

theorem applyLinksFrom_no_occur :
    ∀ (rs : List SearchResult) (off : Nat) (t : String),
      (∀ idx, off < idx → idx ≤ off + rs.length →
        ¬ OccursIn (markerChars idx) t.data) →
      applyLinksFrom off rs t = t := by
  intro rs
  induction rs with
  | nil => intro off t _; rfl
  | cons r rs ih =>
      intro off t h
      simp only [applyLinksFrom]
      have hid : pyReplace t (markerStr (off + 1)) (resultLink r) = t := by
        unfold pyReplace
        have hno := pyReplaceAux_no_occur (markerChars (off + 1)) (resultLink r).data
          (markerChars_ne_nil _) t.data
          (h (off + 1) (by omega) (by simp only [List.length_cons]; omega))
        rw [show (markerStr (off + 1)).data = markerChars (off + 1) from rfl, hno]
      rw [hid]
      exact ih (off + 1) t (fun idx h1 h2 => h idx (by omega)
        (by simp only [List.length_cons] at h2 ⊢; omega))

theorem applyLinks_render (results : List SearchResult) (raw : List Char)
    (hno : ∀ j k, 1 ≤ j → j ≤ results.length → 1 ≤ k → k ≤ results.length →
      ¬ OccursIn (markerChars k) (linkChars results j))
    (hfmt : ∀ k, 1 ≤ k → k ≤ results.length →
      ∃ mid, linkChars results k = '[' :: (mid ++ [')'])) :
    ∀ (rs : List SearchResult) (off : Nat), results.drop off = rs →
      off + rs.length = results.length →
      applyLinksFrom off rs (String.mk (renderUpTo (linkChars results) off
          (tokenizeRefsAux results.length raw.length raw)))
        = String.mk (renderUpTo (linkChars results) results.length
          (tokenizeRefsAux results.length raw.length raw)) := by
  intro rs
  induction rs with
  | nil =>
      intro off hdrop hlen
      simp only [applyLinksFrom]
      simp only [List.length_nil, Nat.add_zero] at hlen
      rw [hlen]
  | cons r rs ih =>
      intro off hdrop hlen
      have hoff : off < results.length := by
        simp only [List.length_cons] at hlen
        omega
      have hget : results.get? off = some r := by
        have h2 := List.get?_drop results off 0
        rw [hdrop] at h2
        simpa using h2.symm
      have hlink : linkChars results (off + 1) = (resultLink r).data := by
        unfold linkChars
        rw [show off + 1 - 1 = off from rfl, hget]
      simp only [applyLinksFrom]
      have hrepl : pyReplace
          (String.mk (renderUpTo (linkChars results) off
            (tokenizeRefsAux results.length raw.length raw)))
          (markerStr (off + 1)) (resultLink r)
          = String.mk (renderUpTo (linkChars results) (off + 1)
            (tokenizeRefsAux results.length raw.length raw)) := by
        unfold pyReplace
        congr 1
        show pyReplaceAux (markerChars (off + 1)) (resultLink r).data
            (renderUpTo (linkChars results) off
              (tokenizeRefsAux results.length raw.length raw)).length
            (renderUpTo (linkChars results) off
              (tokenizeRefsAux results.length raw.length raw))
          = renderUpTo (linkChars results) (off + 1)
            (tokenizeRefsAux results.length raw.length raw)
        rw [← hlink]
        exact replace_step (linkChars results) results.length off hoff hno hfmt
          raw.length raw (le_refl _)
      rw [hrepl]
      have hdrop2 : results.drop (off + 1) = rs := by
        have h2 : (results.drop off).drop 1 = rs := by rw [hdrop]; rfl
        rwa [List.drop_drop] at h2
      have hlen2 : (off + 1) + rs.length = results.length := by
        simp only [List.length_cons] at hlen
        omega
      exact ih (off + 1) hdrop2 hlen2

theorem OccursIn_iff_listContains (pat s : List Char) :
    OccursIn pat s ↔ listContains s pat = true := by
  constructor
  · rintro ⟨a, b, hab⟩
    unfold listContains
    rw [List.any_eq_true]
    refine ⟨a.length, ?_, ?_⟩
    · rw [List.mem_range]
      have : s.length = a.length + pat.length + b.length := by
        rw [hab]
        simp [List.length_append]
        omega
      omega
    · rw [List.isPrefixOf_iff_prefix]
      refine ⟨b, ?_⟩
      rw [hab, List.append_assoc, List.drop_left]
  · intro h
    unfold listContains at h
    rw [List.any_eq_true] at h
    obtain ⟨i, hi, hp⟩ := h
    rw [List.isPrefixOf_iff_prefix] at hp
    obtain ⟨b, hb⟩ := hp
    exact ⟨s.take i, b, by rw [List.append_assoc, hb, List.take_append_drop]⟩

theorem linkChars_format (results : List SearchResult) :
    ∀ k, 1 ≤ k → k ≤ results.length →
      ∃ mid, linkChars results k = '[' :: (mid ++ [')']) := by
  intro k h1 h2
  have hlt : k - 1 < results.length := by omega
  unfold linkChars
  rw [List.get?_eq_get hlt]
  exact resultLink_format _

/-- C8 (amended): the post-processing of generate_cited_answer performs
one sequential str.replace pass per result.  Whenever no rendered link
text itself contains an in-range bracket marker — in particular whenever
no citation label or URL embeds a literal "[n]" with n ≤ len(results) —
the sequential passes coincide with the claimed simultaneous
substitution: every literal occurrence of [n], for n from 1 to
len(results), is replaced by the markdown link of result n, and every
other character, including every bracket marker whose index exceeds the
number of results, is passed through verbatim.  Moreover a raw answer
containing no in-range marker at all is returned completely unmodified.
Without the side condition the sequential and simultaneous semantics
genuinely differ (see the adversarial counterexample). -/
theorem c8_marker_substitution_amended (raw : String) (results : List SearchResult)
    (hno : ∀ j k, 1 ≤ j → j ≤ results.length → 1 ≤ k → k ≤ results.length →
      ¬ OccursIn (markerChars k) (linkChars results j)) :
    (replaceRefsWithLinks raw results).data
        = claimSubst (linkChars results) results.length raw.data
      ∧ ((∀ k, 1 ≤ k → k ≤ results.length →
            ¬ OccursIn (markerChars k) raw.data) →
          replaceRefsWithLinks raw results = raw) := by
  constructor
  · rw [replaceRefs_eq_applyLinks]
    have h0 : renderUpTo (linkChars results) 0
        (tokenizeRefsAux results.length raw.data.length raw.data) = raw.data := by
      unfold renderUpTo
      rw [renderToks_congr _ markerChars _ (fun k hk => by
        obtain ⟨h1, _⟩ :=
          tokenizeRefsAux_cites results.length raw.data.length raw.data k hk
        rw [if_neg (by omega)])]
      exact tokenize_render results.length raw.data.length raw.data (le_refl _)
    have hchain := applyLinks_render results raw.data hno (linkChars_format results)
      results 0 rfl (by simp)
    rw [h0] at hchain
    have hraw : String.mk raw.data = raw := rfl
    rw [hraw] at hchain
    rw [hchain]
    show renderUpTo (linkChars results) results.length
        (tokenizeRefsAux results.length raw.data.length raw.data)
      = claimSubst (linkChars results) results.length raw.data
    unfold claimSubst
    rw [claimSubstAux_eq_render _ _ _ _ (le_refl _)]
    unfold renderUpTo
    exact renderToks_congr _ _ _ (fun k hk => by
      obtain ⟨_, h2⟩ :=
        tokenizeRefsAux_cites results.length raw.data.length raw.data k hk
      rw [if_pos h2])
  · intro hk
    rw [replaceRefs_eq_applyLinks]
    exact applyLinksFrom_no_occur results 0 raw
      (fun idx h1 h2 => hk idx h1 (by simpa using h2))

set_option maxRecDepth 200000 in
/-- Closed counterexample to C8 as stated: with two results whose first
citation label itself contains the literal marker "[2]", the sequential
replacement passes of _replace_refs_with_links rewrite the marker that
the first pass just inserted, so the output differs from the claimed
simultaneous substitution (which leaves the label text intact). -/
theorem c8_counterexample :
    (replaceRefsWithLinks "[1]"
        [⟨"t1", SourceType.web, "https://u1", "see [2]", none, none, mkRat 9 10⟩,
         ⟨"t2", SourceType.video, "https://u2", "Vid", some 135, none, mkRat 42 100⟩]).data
      ≠ claimSubst
          (linkChars
            [⟨"t1", SourceType.web, "https://u1", "see [2]", none, none, mkRat 9 10⟩,
             ⟨"t2", SourceType.video, "https://u2", "Vid", some 135, none, mkRat 42 100⟩]) 2
          ("[1]").data := by
  decide

set_option maxRecDepth 200000 in
/-- Witness for the amended C8 theorem at a concrete input: one result
whose rendered link "[Doc](https://u) (90%)" contains no in-range
marker, and a raw answer "see [1] and [9]" holding one in-range and one
out-of-range marker. -/
theorem c8_marker_substitution_amended_witness :
    (replaceRefsWithLinks "see [1] and [9]"
        [⟨"t", SourceType.web, "https://u", "Doc", none, none, mkRat 9 10⟩]).data
        = claimSubst
            (linkChars [⟨"t", SourceType.web, "https://u", "Doc", none, none, mkRat 9 10⟩])
            1 ("see [1] and [9]").data
      ∧ ((∀ k, 1 ≤ k → k ≤ 1 →
            ¬ OccursIn (markerChars k) ("see [1] and [9]").data) →
          replaceRefsWithLinks "see [1] and [9]"
              [⟨"t", SourceType.web, "https://u", "Doc", none, none, mkRat 9 10⟩]
            = "see [1] and [9]") :=
  c8_marker_substitution_amended "see [1] and [9]"
    [⟨"t", SourceType.web, "https://u", "Doc", none, none, mkRat 9 10⟩]
    (by
      intro j k h1 h2 h3 h4
      simp only [List.length_cons, List.length_nil] at h2 h4
      obtain rfl : j = 1 := by omega
      obtain rfl : k = 1 := by omega
      rw [OccursIn_iff_listContains]
      decide)
